import Mathlib

/-!
# Clustering Metrics Engine — verification development

Shallow embedding of the clustering-quality metrics of this repository
(`src/Clustering/evaluation_metrics.ipynb`).  The notebook's own code
computes purity from per-cluster true-label counts (cell 5) and delegates
every other metric to a statistics library; those library computations are
modelled here from the specification's formulas (§4 of the spec), each such
definition marked `Modelled from the spec:` in its doc comment.

Labels (both ground-truth classes and predicted cluster identifiers) are
embedded as natural numbers; comparison is equality-only, as the data model
requires.  Exact arithmetic (ℚ) replaces floating point where the metric is
rational (purity, Rand Index, Adjusted Rand Index, Calinski-Harabasz);
metrics involving logarithms or square roots live in ℝ.
-/

/-- Error taxonomy of the metrics engine (spec §7): `invalidInput` for
length mismatches and empty sequences, `insufficientClusters` for cluster
counts out of valid range, `degenerateInput` for mathematically undefined
results. -/
inductive MetricError where
  | invalidInput
  | insufficientClusters
  | degenerateInput
deriving DecidableEq, Repr

/-- Maximum of a list of naturals (0 on the empty list). -/
def listMax (l : List ℕ) : ℕ := l.foldr max 0

/-! ## Purity from per-cluster counts (notebook cell 5)

The notebook represents each cluster as a mapping from true label to count
(`{"A": 5, "B": 1}` …); only the counts (`cluster.values()`) are ever used,
so a cluster is embedded as its list of per-label counts. -/

/-- `total_points` of cell 5: the sum over clusters of the sum of the
cluster's per-label counts. -/
def total_points (clusters : List (List ℕ)) : ℕ :=
  (clusters.map (fun cluster => cluster.sum)).sum

/-- `majority_sum` of cell 5: the sum over clusters of the maximal
per-label count of the cluster. -/
def majority_sum (clusters : List (List ℕ)) : ℕ :=
  (clusters.map (fun cluster => listMax cluster)).sum

/-- Purity as computed in cell 5: `majority_sum / total_points`. -/
def purityFromCounts (clusters : List (List ℕ)) : ℚ :=
  (majority_sum clusters : ℚ) / (total_points clusters : ℚ)

/-- The worked example of cell 5: clusters `{A:5,B:1}, {A:1,B:4,C:1},
{A:2,C:3}`, keeping only the counts. -/
def exampleClusters : List (List ℕ) := [[5, 1], [1, 4, 1], [2, 3]]

/-! ## Contingency table -/

/-- Co-occurrence count `n_ij`: how many positions carry true label `i`
together with predicted cluster `j`. -/
def contCount (t p : List ℕ) (i j : ℕ) : ℕ := (t.zip p).count (i, j)

/-- `sum(C(n_ij, 2))` over the contingency table: entries outside the
co-occurrence support contribute `C(0,2) = 0`, so the sum ranges over the
support of the zipped sequences. -/
def sumNij2 (t p : List ℕ) : ℕ :=
  ∑ ij ∈ (t.zip p).toFinset, ((t.zip p).count ij).choose 2

/-- `sum(C(a_i, 2))` over the marginal counts of a label sequence (row sums
`a_i` when applied to the true labels, column sums `b_j` when applied to the
predicted labels). -/
def sumA2 (t : List ℕ) : ℕ := ∑ i ∈ t.toFinset, (t.count i).choose 2

/-! ## Label-based metrics (spec §4.1) -/

/-- Modelled from the spec: `purity(true_labels, predicted_labels)` —
"For each cluster, find the count of the most frequent true label among its
members; sum these maxima across clusters and divide by N.  Fails with
`InvalidInput` if N=0 or lengths mismatch."  (The notebook delegates the
pair-of-sequences form to a statistics library.) -/
def purity (t p : List ℕ) : Except MetricError ℚ :=
  if t.length = 0 ∨ t.length ≠ p.length then .error .invalidInput
  else .ok
    (((p.dedup.map (fun j => listMax (t.dedup.map (fun i => contCount t p i j)))).sum : ℚ)
      / (t.length : ℚ))

/-- Modelled from the spec: `rand_index` via contingency-table sums —
"agreements = sum(C(n_ij,2)) + [C(N,2) - sum(C(a_i,2)) - sum(C(b_j,2)) +
sum(C(n_ij,2))]", divided by C(N,2).  (The notebook delegates this to
`rand_score` of a statistics library.) -/
def rand_index (t p : List ℕ) : Except MetricError ℚ :=
  if t.length = 0 ∨ t.length ≠ p.length then .error .invalidInput
  else .ok
    (((sumNij2 t p : ℚ) +
      ((t.length.choose 2 : ℚ) - (sumA2 t : ℚ) - (sumA2 p : ℚ) + (sumNij2 t p : ℚ)))
      / (t.length.choose 2 : ℚ))

/-- `pairs_together = sum(C(n_ij,2))` of the Adjusted Rand Index. -/
def ariPairsTogether (t p : List ℕ) : ℚ := (sumNij2 t p : ℚ)

/-- `expected_index = sum(C(a_i,2)) * sum(C(b_j,2)) / C(N,2)`. -/
def ariExpected (t p : List ℕ) : ℚ :=
  ((sumA2 t : ℚ) * (sumA2 p : ℚ)) / (t.length.choose 2 : ℚ)

/-- `max_index = 0.5 * (sum(C(a_i,2)) + sum(C(b_j,2)))`. -/
def ariMaxIndex (t p : List ℕ) : ℚ := ((sumA2 t : ℚ) + (sumA2 p : ℚ)) / 2

/-- Modelled from the spec: `adjusted_rand_index` — `ARI = (pairs_together -
expected_index) / (max_index - expected_index)`; if `max_index ==
expected_index`, ARI = 1.0 when `pairs_together == expected_index`, else
fail with `DegenerateInput`.  Fails with `InvalidInput` if N=0 or lengths
mismatch.  (The notebook delegates this to `adjusted_rand_score`.) -/
def adjusted_rand_index (t p : List ℕ) : Except MetricError ℚ :=
  if t.length = 0 ∨ t.length ≠ p.length then .error .invalidInput
  else if ariMaxIndex t p = ariExpected t p then
    (if ariPairsTogether t p = ariExpected t p then .ok 1 else .error .degenerateInput)
  else .ok
    ((ariPairsTogether t p - ariExpected t p) / (ariMaxIndex t p - ariExpected t p))

/-- Modelled from the spec: the unordered index pairs `(k, l)` with `k < l`
on which the two labelings agree — "both points share a cluster AND share a
true label, OR neither share a cluster NOR share a true label". -/
def agreePairs (t p : List ℕ) : Finset (ℕ × ℕ) :=
  (Finset.range t.length ×ˢ Finset.range t.length).filter (fun q =>
    q.1 < q.2 ∧
      ((t.getD q.1 0 = t.getD q.2 0 ∧ p.getD q.1 0 = p.getD q.2 0) ∨
       (¬t.getD q.1 0 = t.getD q.2 0 ∧ ¬p.getD q.1 0 = p.getD q.2 0)))

/-- Modelled from the spec: the direct pairwise Rand Index — the fraction of
the `C(N,2)` unordered point pairs that are in agreement. -/
def randIndexPairwise (t p : List ℕ) : ℚ :=
  ((agreePairs t p).card : ℚ) / (t.length.choose 2 : ℚ)

/-! ## The worked 17-point example (notebook cells 8 and 11) -/

/-- `true_labels` of cells 8 and 11, with A,B,C encoded as 0,1,2. -/
def tEx : List ℕ := [0, 0, 0, 0, 0, 1, 0, 1, 1, 1, 1, 2, 0, 0, 2, 2, 2]

/-- `predicted_labels` of cells 8 and 11. -/
def pEx : List ℕ := [0, 0, 0, 0, 0, 0, 1, 1, 1, 1, 1, 1, 2, 2, 2, 2, 2]

/-! ## Mutual Information and Normalized Mutual Information (spec §4.1) -/

/-- One term of the Mutual Information sum: `p_ij * log(p_ij / (p_i * p_j))`
with `p_ij = n_ij / N`, `p_i = a_i / N`, `p_j = b_j / N`; zero terms
(`n_ij = 0`) contribute 0 and are skipped. -/
noncomputable def miTerm (n nij ai bj : ℕ) : ℝ :=
  if nij = 0 then 0
  else ((nij : ℝ) / n) * Real.log (((nij : ℝ) / n) / (((ai : ℝ) / n) * ((bj : ℝ) / n)))

/-- Modelled from the spec: the Mutual Information value
`MI = sum_{i,j: n_ij>0} p_ij * log(p_ij / (p_i * p_j))` in natural log,
summed over the distinct true labels and distinct predicted clusters.
(The notebook delegates this to `mutual_info_score`.) -/
noncomputable def mutualInfoVal (t p : List ℕ) : ℝ :=
  (t.dedup.map (fun i =>
    (p.dedup.map (fun j =>
      miTerm t.length (contCount t p i j) (t.count i) (p.count j))).sum)).sum

/-- Modelled from the spec: `mutual_information(true_labels, predicted_labels)`,
failing with `InvalidInput` if N=0 or lengths mismatch. -/
noncomputable def mutual_information (t p : List ℕ) : Except MetricError ℝ :=
  if t.length = 0 ∨ t.length ≠ p.length then .error .invalidInput
  else .ok (mutualInfoVal t p)

/-- Shannon entropy `H(X) = -sum p_x * log(p_x)` of the marginal
distribution of a label sequence. -/
noncomputable def entropyVal (xs : List ℕ) : ℝ :=
  -((xs.dedup.map (fun x =>
      ((xs.count x : ℝ) / xs.length) * Real.log ((xs.count x : ℝ) / xs.length))).sum)

/-- Modelled from the spec: the NMI value `MI / ((H(true) + H(pred)) / 2)`
(arithmetic-mean normalization), defined as 1.0 by convention when both
marginal entropies are 0, i.e. when there is a single class and a single
cluster. -/
noncomputable def normalizedMutualInfoVal (t p : List ℕ) : ℝ :=
  if t.dedup.length ≤ 1 ∧ p.dedup.length ≤ 1 then 1
  else mutualInfoVal t p / ((entropyVal t + entropyVal p) / 2)

/-- Modelled from the spec:
`normalized_mutual_information(true_labels, predicted_labels)`, failing with
`InvalidInput` if N=0 or lengths mismatch.  (The notebook delegates this to
`normalized_mutual_info_score`.) -/
noncomputable def normalized_mutual_information (t p : List ℕ) : Except MetricError ℝ :=
  if t.length = 0 ∨ t.length ≠ p.length then .error .invalidInput
  else .ok (normalizedMutualInfoVal t p)

/-! ## Distance-based metrics (spec §4.2)

Feature vectors carry exact rational coordinates; Euclidean distances live
in ℝ (square roots), squared distances stay in ℚ. -/

/-- Euclidean distance between two feature vectors. -/
noncomputable def euclid (x y : List ℚ) : ℝ :=
  Real.sqrt (((x.zip y).map (fun c => ((c.1 - c.2 : ℚ) : ℝ) ^ 2)).sum)

/-- Squared Euclidean distance, exact in ℚ. -/
def sqdist (x y : List ℚ) : ℚ := ((x.zip y).map (fun c => (c.1 - c.2) ^ 2)).sum

/-- Minimum of a list of reals (0 on the empty list). -/
noncomputable def listMinR : List ℝ → ℝ
  | [] => 0
  | [x] => x
  | x :: y :: l => min x (listMinR (y :: l))

/-- Maximum of a list of reals (0 on the empty list). -/
noncomputable def listMaxR : List ℝ → ℝ
  | [] => 0
  | [x] => x
  | x :: y :: l => max x (listMaxR (y :: l))

/-- The positions assigned to cluster `c`. -/
def clusterIdx (labels : List ℕ) (c : ℕ) : Finset ℕ :=
  (Finset.range labels.length).filter (fun k => labels.getD k 0 = c)

/-- Mean distance from point `i` to the members of cluster `c`. -/
noncomputable def meanDistTo (d : List ℚ → List ℚ → ℝ) (features : List (List ℚ))
    (labels : List ℕ) (i c : ℕ) : ℝ :=
  (∑ k ∈ clusterIdx labels c, d (features.getD i []) (features.getD k []))
    / ((clusterIdx labels c).card : ℝ)

/-- `a(i)`: mean distance from `i` to the other members of its own cluster,
0 when that cluster is a singleton. -/
noncomputable def silA (d : List ℚ → List ℚ → ℝ) (features : List (List ℚ))
    (labels : List ℕ) (i : ℕ) : ℝ :=
  if ((clusterIdx labels (labels.getD i 0)).erase i).card = 0 then 0
  else (∑ k ∈ (clusterIdx labels (labels.getD i 0)).erase i,
      d (features.getD i []) (features.getD k []))
    / (((clusterIdx labels (labels.getD i 0)).erase i).card : ℝ)

/-- `b(i)`: minimum over the other clusters of the mean distance from `i`
to that cluster. -/
noncomputable def silB (d : List ℚ → List ℚ → ℝ) (features : List (List ℚ))
    (labels : List ℕ) (i : ℕ) : ℝ :=
  listMinR ((labels.dedup.filter (fun c => c ≠ labels.getD i 0)).map
    (fun c => meanDistTo d features labels i c))

/-- `s(i) = (b(i) - a(i)) / max(a(i), b(i))`, 0 when both are 0. -/
noncomputable def silS (d : List ℚ → List ℚ → ℝ) (features : List (List ℚ))
    (labels : List ℕ) (i : ℕ) : ℝ :=
  if max (silA d features labels i) (silB d features labels i) = 0 then 0
  else (silB d features labels i - silA d features labels i)
    / max (silA d features labels i) (silB d features labels i)

/-- The mean of `s(i)` over all points. -/
noncomputable def silhouetteVal (d : List ℚ → List ℚ → ℝ) (features : List (List ℚ))
    (labels : List ℕ) : ℝ :=
  (∑ i ∈ Finset.range labels.length, silS d features labels i) / (labels.length : ℝ)

/-- Modelled from the spec: `silhouette_score(features, predicted_labels,
distance_fn=euclidean)` — the mean silhouette coefficient; fails with
`InvalidInput` on empty or mismatched inputs and with
`InsufficientClusters` when there are fewer than two distinct clusters.
(The notebook delegates this to `silhouette_score` of a statistics
library.) -/
noncomputable def silhouette_score (features : List (List ℚ)) (labels : List ℕ) :
    Except MetricError ℝ :=
  if labels.length = 0 ∨ features.length ≠ labels.length then .error .invalidInput
  else if labels.dedup.length < 2 then .error .insufficientClusters
  else .ok (silhouetteVal euclid features labels)

/-- Componentwise sum of a non-empty family of vectors (empty gives the
empty vector). -/
def vsum : List (List ℚ) → List ℚ
  | [] => []
  | [v] => v
  | v :: w :: l => List.zipWith (fun a b => a + b) v (vsum (w :: l))

/-- Centroid of cluster `c`: componentwise mean of its members' feature
vectors. -/
def centroid (features : List (List ℚ)) (labels : List ℕ) (c : ℕ) : List ℚ :=
  ((vsum (((List.range labels.length).filter (fun k => labels.getD k 0 = c)).map
      (fun k => features.getD k []))).map
    (fun x => x / ((((List.range labels.length).filter
      (fun k => labels.getD k 0 = c)).map (fun k => features.getD k [])).length : ℚ)))

/-- Centroid of the whole data set. -/
def overallCentroid (features : List (List ℚ)) (labels : List ℕ) : List ℚ :=
  ((vsum ((List.range labels.length).map (fun k => features.getD k []))).map
    (fun x => x / (((List.range labels.length).map (fun k => features.getD k [])).length : ℚ)))

/-- Scatter `S_k`: mean distance from the members of cluster `c` to its
centroid. -/
noncomputable def dbScatter (features : List (List ℚ)) (labels : List ℕ) (c : ℕ) : ℝ :=
  (∑ k ∈ clusterIdx labels c, euclid (features.getD k []) (centroid features labels c))
    / ((clusterIdx labels c).card : ℝ)

/-- `D_k`: the largest ratio `R_kl = (S_k + S_l) / d(centroid_k, centroid_l)`
over the other clusters `l`. -/
noncomputable def dbD (features : List (List ℚ)) (labels : List ℕ) (c : ℕ) : ℝ :=
  listMaxR ((labels.dedup.filter (fun l => l ≠ c)).map (fun l =>
    (dbScatter features labels c + dbScatter features labels l)
      / euclid (centroid features labels c) (centroid features labels l)))

/-- Modelled from the spec: `davies_bouldin_index(features, predicted_labels)`
— the mean of `D_k` over the clusters; validation as for the silhouette
score.  (The notebook delegates this to `davies_bouldin_score`.) -/
noncomputable def davies_bouldin_index (features : List (List ℚ)) (labels : List ℕ) :
    Except MetricError ℝ :=
  if labels.length = 0 ∨ features.length ≠ labels.length then .error .invalidInput
  else if labels.dedup.length < 2 then .error .insufficientClusters
  else .ok ((labels.dedup.map (fun c => dbD features labels c)).sum
    / (labels.dedup.length : ℝ))

/-- Between-cluster dispersion `B`: the size-weighted sum of squared
centroid-to-overall-centroid distances. -/
def chB (features : List (List ℚ)) (labels : List ℕ) : ℚ :=
  (labels.dedup.map (fun c =>
    (((clusterIdx labels c).card : ℚ) *
      sqdist (centroid features labels c) (overallCentroid features labels)))).sum

/-- Within-cluster dispersion `W`: the sum of squared point-to-own-centroid
distances. -/
def chW (features : List (List ℚ)) (labels : List ℕ) : ℚ :=
  ∑ k ∈ Finset.range labels.length,
    sqdist (features.getD k []) (centroid features labels (labels.getD k 0))

/-- Modelled from the spec: `calinski_harabasz_index(features,
predicted_labels)` — `(B / (K-1)) / (W / (N-K))` when `1 < K < N`, failing
with `InsufficientClusters` otherwise.  (The notebook delegates this to
`calinski_harabasz_score`.) -/
def calinski_harabasz_index (features : List (List ℚ)) (labels : List ℕ) :
    Except MetricError ℚ :=
  if 1 < labels.dedup.length ∧ labels.dedup.length < labels.length then
    .ok ((chB features labels / ((labels.dedup.length : ℚ) - 1))
      / (chW features labels / ((labels.length : ℚ) - (labels.dedup.length : ℚ))))
  else .error .insufficientClusters

/-! ## Rational bounds on natural logarithms

`Real.log (a / b)` is pinned between `p / q` fractions by comparing the
integer powers `a ^ q`, `b ^ q` with powers of the decimal bounds on `e`
from Mathlib (`Real.exp_one_gt_d9` and `Real.exp_one_lt_d9`). -/

set_option exponentiation.threshold 2000000

/-- `log (a / b) < p / q` follows from `(a / b) ^ q < (27182818283 / 10 ^ 10) ^ p`,
stated as a comparison of natural numbers. -/
lemma real_log_lt_of_pow (a b p q : ℕ) (ha : 0 < a) (hb : 0 < b) (hp : 0 < p) (hq : 0 < q)
    (h : a ^ q * (10 ^ 10) ^ p < b ^ q * 27182818283 ^ p) :
    Real.log ((a : ℝ) / (b : ℝ)) < (p : ℝ) / (q : ℝ) := by
  have ha' : (0 : ℝ) < a := by exact_mod_cast ha
  have hb' : (0 : ℝ) < b := by exact_mod_cast hb
  have hq' : (0 : ℝ) < q := by exact_mod_cast hq
  have hcast : ((a : ℝ)) ^ q * ((10 : ℝ) ^ 10) ^ p < ((b : ℝ)) ^ q * (27182818283 : ℝ) ^ p := by
    exact_mod_cast h
  have h1 : ((a : ℝ) / b) ^ q < ((27182818283 : ℝ) / 10 ^ 10) ^ p := by
    rw [div_pow, div_pow, div_lt_div_iff₀ (by positivity) (by positivity)]
    nlinarith [hcast]
  have h2 : ((27182818283 : ℝ) / 10 ^ 10) ^ p < Real.exp 1 ^ p := by
    refine pow_lt_pow_left₀ ?_ (by positivity) (Nat.pos_iff_ne_zero.mp hp)
    have := Real.exp_one_gt_d9
    norm_num at this ⊢
    linarith
  have h3 : ((a : ℝ) / b) ^ q < Real.exp p := by
    rw [← Real.exp_one_pow]
    exact h1.trans h2
  have h4 : Real.log (((a : ℝ) / b) ^ q) < (p : ℝ) :=
    (Real.log_lt_iff_lt_exp (by positivity)).mpr h3
  rw [Real.log_pow] at h4
  rw [lt_div_iff₀ hq']
  linarith
/-- `p / q < log (a / b)` follows from `(27182818286 / 10 ^ 10) ^ p < (a / b) ^ q`,
stated as a comparison of natural numbers. -/
lemma real_log_gt_of_pow (a b p q : ℕ) (ha : 0 < a) (hb : 0 < b) (hq : 0 < q)
    (h : b ^ q * 27182818286 ^ p < a ^ q * (10 ^ 10) ^ p) :
    (p : ℝ) / (q : ℝ) < Real.log ((a : ℝ) / (b : ℝ)) := by
  have ha' : (0 : ℝ) < a := by exact_mod_cast ha
  have hb' : (0 : ℝ) < b := by exact_mod_cast hb
  have hq' : (0 : ℝ) < q := by exact_mod_cast hq
  have hcast : ((b : ℝ)) ^ q * (27182818286 : ℝ) ^ p < ((a : ℝ)) ^ q * ((10 : ℝ) ^ 10) ^ p := by
    exact_mod_cast h
  have h1 : ((27182818286 : ℝ) / 10 ^ 10) ^ p < ((a : ℝ) / b) ^ q := by
    rw [div_pow, div_pow, div_lt_div_iff₀ (by positivity) (by positivity)]
    nlinarith [hcast]
  have h2 : Real.exp 1 ^ p ≤ ((27182818286 : ℝ) / 10 ^ 10) ^ p := by
    refine pow_le_pow_left₀ (le_of_lt (Real.exp_pos 1)) ?_ p
    have := Real.exp_one_lt_d9
    norm_num at this ⊢
    linarith
  have h3 : Real.exp p < ((a : ℝ) / b) ^ q := by
    rw [← Real.exp_one_pow]
    exact lt_of_le_of_lt h2 h1
  have h4 : (p : ℝ) < Real.log (((a : ℝ) / b) ^ q) :=
    (Real.lt_log_iff_exp_lt (by positivity)).mpr h3
  rw [Real.log_pow] at h4
  rw [div_lt_iff₀ hq']
  linarith
/-- Two-sided bound on `log (85 / 48)`. -/
lemma logb_85_48 : (57144 : ℝ) / 100000 < Real.log ((85 : ℝ) / 48) ∧
    Real.log ((85 : ℝ) / 48) < (57146 : ℝ) / 100000 :=
  ⟨real_log_gt_of_pow 85 48 57144 100000 (by norm_num) (by norm_num) (by norm_num) (by decide),
   real_log_lt_of_pow 85 48 57146 100000 (by norm_num) (by norm_num) (by norm_num) (by norm_num)
     (by decide)⟩

/-- Two-sided bound on `log (30 / 17)`. -/
lemma logb_30_17 : (56797 : ℝ) / 100000 < Real.log ((30 : ℝ) / 17) ∧
    Real.log ((30 : ℝ) / 17) < (56799 : ℝ) / 100000 :=
  ⟨real_log_gt_of_pow 30 17 56797 100000 (by norm_num) (by norm_num) (by norm_num) (by decide),
   real_log_lt_of_pow 30 17 56799 100000 (by norm_num) (by norm_num) (by norm_num) (by norm_num)
     (by decide)⟩

/-- Two-sided bound on `log (48 / 17)`. -/
lemma logb_48_17 : (103798 : ℝ) / 100000 < Real.log ((48 : ℝ) / 17) ∧
    Real.log ((48 : ℝ) / 17) < (103800 : ℝ) / 100000 :=
  ⟨real_log_gt_of_pow 48 17 103798 100000 (by norm_num) (by norm_num) (by norm_num) (by decide),
   real_log_lt_of_pow 48 17 103800 100000 (by norm_num) (by norm_num) (by norm_num) (by norm_num)
     (by decide)⟩

/-- Two-sided bound on `log (34 / 15)`. -/
lemma logb_34_15 : (81830 : ℝ) / 100000 < Real.log ((34 : ℝ) / 15) ∧
    Real.log ((34 : ℝ) / 15) < (81832 : ℝ) / 100000 :=
  ⟨real_log_gt_of_pow 34 15 81830 100000 (by norm_num) (by norm_num) (by norm_num) (by decide),
   real_log_lt_of_pow 34 15 81832 100000 (by norm_num) (by norm_num) (by norm_num) (by norm_num)
     (by decide)⟩

/-- Two-sided bound on `log (24 / 17)`. -/
lemma logb_24_17 : (34483 : ℝ) / 100000 < Real.log ((24 : ℝ) / 17) ∧
    Real.log ((24 : ℝ) / 17) < (34485 : ℝ) / 100000 :=
  ⟨real_log_gt_of_pow 24 17 34483 100000 (by norm_num) (by norm_num) (by norm_num) (by decide),
   real_log_lt_of_pow 24 17 34485 100000 (by norm_num) (by norm_num) (by norm_num) (by norm_num)
     (by decide)⟩

/-- Two-sided bound on `log (20 / 17)`. -/
lemma logb_20_17 : (16251 : ℝ) / 100000 < Real.log ((20 : ℝ) / 17) ∧
    Real.log ((20 : ℝ) / 17) < (16253 : ℝ) / 100000 :=
  ⟨real_log_gt_of_pow 20 17 16251 100000 (by norm_num) (by norm_num) (by norm_num) (by decide),
   real_log_lt_of_pow 20 17 16253 100000 (by norm_num) (by norm_num) (by norm_num) (by norm_num)
     (by decide)⟩

/-- Two-sided bound on `log (51 / 20)`. -/
lemma logb_51_20 : (93608 : ℝ) / 100000 < Real.log ((51 : ℝ) / 20) ∧
    Real.log ((51 : ℝ) / 20) < (93610 : ℝ) / 100000 :=
  ⟨real_log_gt_of_pow 51 20 93608 100000 (by norm_num) (by norm_num) (by norm_num) (by decide),
   real_log_lt_of_pow 51 20 93610 100000 (by norm_num) (by norm_num) (by norm_num) (by norm_num)
     (by decide)⟩

/-- Two-sided bound on `log (17 / 8)`. -/
lemma logb_17_8 : (75376 : ℝ) / 100000 < Real.log ((17 : ℝ) / 8) ∧
    Real.log ((17 : ℝ) / 8) < (75378 : ℝ) / 100000 :=
  ⟨real_log_gt_of_pow 17 8 75376 100000 (by norm_num) (by norm_num) (by norm_num) (by decide),
   real_log_lt_of_pow 17 8 75378 100000 (by norm_num) (by norm_num) (by norm_num) (by norm_num)
     (by decide)⟩

/-- Two-sided bound on `log (17 / 5)`. -/
lemma logb_17_5 : (122376 : ℝ) / 100000 < Real.log ((17 : ℝ) / 5) ∧
    Real.log ((17 : ℝ) / 5) < (122378 : ℝ) / 100000 :=
  ⟨real_log_gt_of_pow 17 5 122376 100000 (by norm_num) (by norm_num) (by norm_num) (by decide),
   real_log_lt_of_pow 17 5 122378 100000 (by norm_num) (by norm_num) (by norm_num) (by norm_num)
     (by decide)⟩

/-- Two-sided bound on `log (17 / 4)`. -/
lemma logb_17_4 : (144691 : ℝ) / 100000 < Real.log ((17 : ℝ) / 4) ∧
    Real.log ((17 : ℝ) / 4) < (144693 : ℝ) / 100000 :=
  ⟨real_log_gt_of_pow 17 4 144691 100000 (by norm_num) (by norm_num) (by norm_num) (by decide),
   real_log_lt_of_pow 17 4 144693 100000 (by norm_num) (by norm_num) (by norm_num) (by norm_num)
     (by decide)⟩

/-- Two-sided bound on `log (17 / 6)`. -/
lemma logb_17_6 : (104144 : ℝ) / 100000 < Real.log ((17 : ℝ) / 6) ∧
    Real.log ((17 : ℝ) / 6) < (104146 : ℝ) / 100000 :=
  ⟨real_log_gt_of_pow 17 6 104144 100000 (by norm_num) (by norm_num) (by norm_num) (by decide),
   real_log_lt_of_pow 17 6 104146 100000 (by norm_num) (by norm_num) (by norm_num) (by norm_num)
     (by decide)⟩

/-- C1: the purity operation on per-cluster true-label counts is the sum of
per-cluster majority counts divided by the total count, and on the worked
example it returns 12/17, which prints as 0.71 to two decimal places. -/
theorem C1_purity_from_counts :
    (∀ clusters : List (List ℕ),
      purityFromCounts clusters =
        (((clusters.map (fun cluster => listMax cluster)).sum : ℕ) : ℚ) /
          (((clusters.map (fun cluster => cluster.sum)).sum : ℕ) : ℚ)) ∧
    purityFromCounts exampleClusters = 12 / 17 ∧
    round ((100 : ℚ) * purityFromCounts exampleClusters) = 71 := by
  have hm : majority_sum exampleClusters = 12 := by decide
  have ht : total_points exampleClusters = 17 := by decide
  have hp : purityFromCounts exampleClusters = 12 / 17 := by
    rw [purityFromCounts, hm, ht]; norm_num
  refine ⟨fun clusters => rfl, hp, ?_⟩
  rw [hp, round_eq, Int.floor_eq_iff]
  constructor <;> norm_num

/-- Flip a logarithm of a quotient. -/
lemma log_flip (a b : ℝ) : Real.log (a / b) = -Real.log (b / a) := by
  rw [← inv_div, Real.log_inv]

/-- Evaluation of a nonzero Mutual Information term. -/
lemma miTerm_eval (n nij ai bj : ℕ) (hn : 0 < n) (hnij : 0 < nij) (hai : 0 < ai)
    (hbj : 0 < bj) :
    miTerm n nij ai bj = ((nij : ℝ) / n) * Real.log (((nij : ℝ) * n) / ((ai : ℝ) * bj)) := by
  unfold miTerm
  rw [if_neg (Nat.pos_iff_ne_zero.mp hnij)]
  have hn' : ((n : ℝ)) ≠ 0 := by positivity
  have hai' : ((ai : ℝ)) ≠ 0 := by positivity
  have hbj' : ((bj : ℝ)) ≠ 0 := by positivity
  congr 2
  field_simp
  ring

/-- A zero co-occurrence contributes no Mutual Information. -/
lemma miTerm_zero (n ai bj : ℕ) : miTerm n 0 ai bj = 0 := by
  simp [miTerm]

/-- Closed form of the Mutual Information of the worked 17-point example. -/
lemma mutualInfoVal_example :
    mutualInfoVal tEx pEx =
      ((5 : ℝ) * Real.log ((85 : ℝ) / 48) - Real.log ((30 : ℝ) / 17)
        - Real.log ((48 : ℝ) / 17) + 4 * Real.log ((34 : ℝ) / 15)
        - Real.log ((24 : ℝ) / 17) - 2 * Real.log ((20 : ℝ) / 17)
        + 3 * Real.log ((51 : ℝ) / 20)) / 17 := by
  have hdt : tEx.dedup = [1, 0, 2] := by decide
  have hdp : pEx.dedup = [0, 1, 2] := by decide
  have hlen : tEx.length = 17 := by decide
  have e10 : miTerm 17 1 5 6 = -(Real.log ((30 : ℝ) / 17)) / 17 := by
    rw [miTerm_eval 17 1 5 6 (by norm_num) (by norm_num) (by norm_num) (by norm_num),
      show ((1 : ℕ) : ℝ) * ((17 : ℕ) : ℝ) / (((5 : ℕ) : ℝ) * ((6 : ℕ) : ℝ))
        = (17 : ℝ) / 30 by push_cast; norm_num,
      log_flip ((17 : ℝ)) 30]
    push_cast
    ring
  have e11 : miTerm 17 4 5 6 = 4 * Real.log ((34 : ℝ) / 15) / 17 := by
    rw [miTerm_eval 17 4 5 6 (by norm_num) (by norm_num) (by norm_num) (by norm_num),
      show ((4 : ℕ) : ℝ) * ((17 : ℕ) : ℝ) / (((5 : ℕ) : ℝ) * ((6 : ℕ) : ℝ))
        = (34 : ℝ) / 15 by push_cast; norm_num]
    push_cast
    ring
  have e00 : miTerm 17 5 8 6 = 5 * Real.log ((85 : ℝ) / 48) / 17 := by
    rw [miTerm_eval 17 5 8 6 (by norm_num) (by norm_num) (by norm_num) (by norm_num),
      show ((5 : ℕ) : ℝ) * ((17 : ℕ) : ℝ) / (((8 : ℕ) : ℝ) * ((6 : ℕ) : ℝ))
        = (85 : ℝ) / 48 by push_cast; norm_num]
    push_cast
    ring
  have e01 : miTerm 17 1 8 6 = -(Real.log ((48 : ℝ) / 17)) / 17 := by
    rw [miTerm_eval 17 1 8 6 (by norm_num) (by norm_num) (by norm_num) (by norm_num),
      show ((1 : ℕ) : ℝ) * ((17 : ℕ) : ℝ) / (((8 : ℕ) : ℝ) * ((6 : ℕ) : ℝ))
        = (17 : ℝ) / 48 by push_cast; norm_num,
      log_flip ((17 : ℝ)) 48]
    push_cast
    ring
  have e02 : miTerm 17 2 8 5 = -(2 * Real.log ((20 : ℝ) / 17)) / 17 := by
    rw [miTerm_eval 17 2 8 5 (by norm_num) (by norm_num) (by norm_num) (by norm_num),
      show ((2 : ℕ) : ℝ) * ((17 : ℕ) : ℝ) / (((8 : ℕ) : ℝ) * ((5 : ℕ) : ℝ))
        = (17 : ℝ) / 20 by push_cast; norm_num,
      log_flip ((17 : ℝ)) 20]
    push_cast
    ring
  have e21 : miTerm 17 1 4 6 = -(Real.log ((24 : ℝ) / 17)) / 17 := by
    rw [miTerm_eval 17 1 4 6 (by norm_num) (by norm_num) (by norm_num) (by norm_num),
      show ((1 : ℕ) : ℝ) * ((17 : ℕ) : ℝ) / (((4 : ℕ) : ℝ) * ((6 : ℕ) : ℝ))
        = (17 : ℝ) / 24 by push_cast; norm_num,
      log_flip ((17 : ℝ)) 24]
    push_cast
    ring
  have e22 : miTerm 17 3 4 5 = 3 * Real.log ((51 : ℝ) / 20) / 17 := by
    rw [miTerm_eval 17 3 4 5 (by norm_num) (by norm_num) (by norm_num) (by norm_num),
      show ((3 : ℕ) : ℝ) * ((17 : ℕ) : ℝ) / (((4 : ℕ) : ℝ) * ((5 : ℕ) : ℝ))
        = (51 : ℝ) / 20 by push_cast; norm_num]
    push_cast
    ring
  unfold mutualInfoVal
  rw [hdt, hdp, hlen]
  simp only [List.map_cons, List.map_nil, List.sum_cons, List.sum_nil]
  rw [show contCount tEx pEx 1 0 = 1 by decide, show contCount tEx pEx 1 1 = 4 by decide,
    show contCount tEx pEx 1 2 = 0 by decide, show contCount tEx pEx 0 0 = 5 by decide,
    show contCount tEx pEx 0 1 = 1 by decide, show contCount tEx pEx 0 2 = 2 by decide,
    show contCount tEx pEx 2 0 = 0 by decide, show contCount tEx pEx 2 1 = 1 by decide,
    show contCount tEx pEx 2 2 = 3 by decide, show tEx.count 1 = 5 by decide,
    show tEx.count 0 = 8 by decide, show tEx.count 2 = 4 by decide,
    show pEx.count 0 = 6 by decide, show pEx.count 1 = 6 by decide,
    show pEx.count 2 = 5 by decide]
  rw [miTerm_zero, miTerm_zero, e10, e11, e00, e01, e02, e21, e22]
  ring

/-- Closed form of the marginal entropy of the true labels of the example. -/
lemma entropyVal_tEx :
    entropyVal tEx =
      ((5 : ℝ) * Real.log ((17 : ℝ) / 5) + 8 * Real.log ((17 : ℝ) / 8)
        + 4 * Real.log ((17 : ℝ) / 4)) / 17 := by
  have hdt : tEx.dedup = [1, 0, 2] := by decide
  unfold entropyVal
  rw [hdt]
  simp only [List.map_cons, List.map_nil, List.sum_cons, List.sum_nil]
  rw [show tEx.count 1 = 5 by decide, show tEx.count 0 = 8 by decide,
    show tEx.count 2 = 4 by decide, show tEx.length = 17 by decide]
  push_cast
  rw [log_flip ((5 : ℝ)) 17, log_flip ((8 : ℝ)) 17, log_flip ((4 : ℝ)) 17]
  ring
/-- Closed form of the marginal entropy of the predicted labels of the
example. -/
lemma entropyVal_pEx :
    entropyVal pEx =
      ((12 : ℝ) * Real.log ((17 : ℝ) / 6) + 5 * Real.log ((17 : ℝ) / 5)) / 17 := by
  have hdp : pEx.dedup = [0, 1, 2] := by decide
  unfold entropyVal
  rw [hdp]
  simp only [List.map_cons, List.map_nil, List.sum_cons, List.sum_nil]
  rw [show pEx.count 0 = 6 by decide, show pEx.count 1 = 6 by decide,
    show pEx.count 2 = 5 by decide, show pEx.length = 17 by decide]
  push_cast
  rw [log_flip ((6 : ℝ)) 17, log_flip ((5 : ℝ)) 17]
  ring
/-- Numeric interval for the Mutual Information of the example. -/
lemma mutualInfoVal_example_bounds :
    (0.39192 : ℝ) < mutualInfoVal tEx pEx ∧ mutualInfoVal tEx pEx < (0.39195 : ℝ) := by
  rw [mutualInfoVal_example]
  obtain ⟨l1, u1⟩ := logb_85_48
  obtain ⟨l2, u2⟩ := logb_30_17
  obtain ⟨l3, u3⟩ := logb_48_17
  obtain ⟨l4, u4⟩ := logb_34_15
  obtain ⟨l5, u5⟩ := logb_24_17
  obtain ⟨l6, u6⟩ := logb_20_17
  obtain ⟨l7, u7⟩ := logb_51_20
  constructor <;> [nlinarith [l1, u2, u3, l4, u5, u6, l7]; nlinarith [u1, l2, l3, u4, l5, l6, u7]]

/-- Numeric interval for the sum of the two marginal entropies of the
example. -/
lemma entropy_sum_example_bounds :
    (2.15015 : ℝ) < entropyVal tEx + entropyVal pEx ∧
      entropyVal tEx + entropyVal pEx < (2.15020 : ℝ) := by
  rw [entropyVal_tEx, entropyVal_pEx]
  obtain ⟨l1, u1⟩ := logb_17_5
  obtain ⟨l2, u2⟩ := logb_17_8
  obtain ⟨l3, u3⟩ := logb_17_4
  obtain ⟨l4, u4⟩ := logb_17_6
  constructor <;> [nlinarith [l1, l2, l3, l4]; nlinarith [u1, u2, u3, u4]]

/-- C2: on the 17-point worked example the four label-based metrics round to
two decimal places as Rand Index 0.68, Adjusted Rand Index 0.24, Mutual
Information 0.39 (natural log) and Normalized Mutual Information 0.36. -/
theorem C2_worked_example_label_metrics :
    (rand_index tEx pEx = .ok (23 / 34) ∧ round ((100 : ℚ) * (23 / 34)) = 68) ∧
    (adjusted_rand_index tEx pEx = .ok (60 / 247) ∧ round ((100 : ℚ) * (60 / 247)) = 24) ∧
    (∃ m : ℝ, mutual_information tEx pEx = .ok m ∧ round ((100 : ℝ) * m) = 39) ∧
    (∃ m : ℝ, normalized_mutual_information tEx pEx = .ok m ∧ round ((100 : ℝ) * m) = 36) := by
  refine ⟨⟨?_, ?_⟩, ⟨?_, ?_⟩, ?_, ?_⟩
  · unfold rand_index
    rw [if_neg (by decide), show sumNij2 tEx pEx = 20 by decide,
      show sumA2 tEx = 44 by decide, show sumA2 pEx = 40 by decide,
      show tEx.length = 17 by decide, show Nat.choose 17 2 = 136 by decide]
    exact congrArg Except.ok (by norm_num)
  · rw [round_eq, Int.floor_eq_iff]
    constructor <;> norm_num
  · have he : ariExpected tEx pEx = 220 / 17 := by
      unfold ariExpected
      rw [show sumA2 tEx = 44 by decide, show sumA2 pEx = 40 by decide,
        show tEx.length = 17 by decide, show Nat.choose 17 2 = 136 by decide]
      norm_num
    have hmx : ariMaxIndex tEx pEx = 42 := by
      unfold ariMaxIndex
      rw [show sumA2 tEx = 44 by decide, show sumA2 pEx = 40 by decide]
      norm_num
    have hpt : ariPairsTogether tEx pEx = 20 := by
      unfold ariPairsTogether
      rw [show sumNij2 tEx pEx = 20 by decide]
      norm_num
    unfold adjusted_rand_index
    rw [if_neg (by decide), he, hmx, hpt, if_neg (by norm_num)]
    exact congrArg Except.ok (by norm_num)
  · rw [round_eq, Int.floor_eq_iff]
    constructor <;> norm_num
  · refine ⟨mutualInfoVal tEx pEx, ?_, ?_⟩
    · unfold mutual_information
      rw [if_neg (by decide)]
    · obtain ⟨hl, hu⟩ := mutualInfoVal_example_bounds
      rw [round_eq, Int.floor_eq_iff]
      constructor
      · push_cast
        linarith
      · push_cast
        linarith
  · refine ⟨normalizedMutualInfoVal tEx pEx, ?_, ?_⟩
    · unfold normalized_mutual_information
      rw [if_neg (by decide)]
    · obtain ⟨hl, hu⟩ := mutualInfoVal_example_bounds
      obtain ⟨el, eu⟩ := entropy_sum_example_bounds
      have hval : normalizedMutualInfoVal tEx pEx =
          mutualInfoVal tEx pEx / ((entropyVal tEx + entropyVal pEx) / 2) := by
        unfold normalizedMutualInfoVal
        rw [if_neg (by decide)]
      have hd : (0 : ℝ) < (entropyVal tEx + entropyVal pEx) / 2 := by linarith
      have hlo : (0.3550 : ℝ) ≤ normalizedMutualInfoVal tEx pEx := by
        rw [hval, le_div_iff₀ hd]
        nlinarith
      have hhi : normalizedMutualInfoVal tEx pEx < (0.3650 : ℝ) := by
        rw [hval, div_lt_iff₀ hd]
        nlinarith
      rw [round_eq, Int.floor_eq_iff]
      constructor
      · push_cast
        linarith
      · push_cast
        linarith

/-- C4: on valid inputs, `adjusted_rand_index` returns 1.0 when the
degenerate case `max_index = expected_index` meets `pairs_together =
expected_index`, fails with `DegenerateInput` when it does not, and
otherwise returns `(pairs_together - expected_index) / (max_index -
expected_index)`. -/
theorem C4_ari_degenerate_case (t p : List ℕ) (hne : t.length ≠ 0)
    (hlen : t.length = p.length) :
    (ariMaxIndex t p = ariExpected t p →
      (ariPairsTogether t p = ariExpected t p → adjusted_rand_index t p = .ok 1) ∧
      (ariPairsTogether t p ≠ ariExpected t p →
        adjusted_rand_index t p = .error .degenerateInput)) ∧
    (ariMaxIndex t p ≠ ariExpected t p →
      adjusted_rand_index t p =
        .ok ((ariPairsTogether t p - ariExpected t p) /
          (ariMaxIndex t p - ariExpected t p))) := by
  have hguard : ¬(t.length = 0 ∨ t.length ≠ p.length) := by
    push_neg
    exact ⟨hne, hlen⟩
  refine ⟨fun hmax => ⟨fun hpt => ?_, fun hpt => ?_⟩, fun hmax => ?_⟩ <;>
    unfold adjusted_rand_index
  · rw [if_neg hguard, if_pos hmax, if_pos hpt]
  · rw [if_neg hguard, if_pos hmax, if_neg hpt]
  · rw [if_neg hguard, if_neg hmax]
/-- Witness for C4: one point in one cluster with one label is degenerate
with `pairs_together = expected_index`, so the Adjusted Rand Index is 1.0. -/
theorem C4_ari_degenerate_case_witness :
    adjusted_rand_index [0] [0] = .ok 1 := by
  have hm : ariMaxIndex [0] [0] = ariExpected [0] [0] := by
    unfold ariMaxIndex ariExpected
    rw [show sumA2 [0] = 0 by decide]
    norm_num
  have hp : ariPairsTogether [0] [0] = ariExpected [0] [0] := by
    unfold ariPairsTogether ariExpected
    rw [show sumNij2 [0] [0] = 0 by decide, show sumA2 [0] = 0 by decide]
    norm_num
  exact ((C4_ari_degenerate_case [0] [0] (by decide) (by decide)).1 hm).1 hp

/-- The sum of a list of non-positive reals is non-positive. -/
lemma list_sum_nonpos (l : List ℝ) (h : ∀ x ∈ l, x ≤ 0) : l.sum ≤ 0 := by
  induction l with
  | nil => simp
  | cons a l ih =>
    simp only [List.sum_cons]
    have ha := h a (List.mem_cons_self a l)
    have hl := ih (fun x hx => h x (List.mem_cons_of_mem a hx))
    linarith
/-- A list of non-positive reals sums to zero exactly when every entry is
zero. -/
lemma list_sum_nonpos_eq_zero_iff (l : List ℝ) (h : ∀ x ∈ l, x ≤ 0) :
    l.sum = 0 ↔ ∀ x ∈ l, x = 0 := by
  induction l with
  | nil => simp
  | cons a l ih =>
    simp only [List.sum_cons, List.mem_cons]
    have ha := h a (List.mem_cons_self a l)
    have hl := list_sum_nonpos l (fun x hx => h x (List.mem_cons_of_mem a hx))
    constructor
    · intro hsum
      have ha0 : a = 0 := by linarith
      have hl0 : l.sum = 0 := by linarith
      intro x hx
      rcases hx with rfl | hx
      · exact ha0
      · exact ((ih (fun y hy => h y (List.mem_cons_of_mem a hy))).mp hl0) x hx
    · intro hall
      have ha0 : a = 0 := hall a (Or.inl rfl)
      have hl0 : l.sum = 0 :=
        (ih (fun y hy => h y (List.mem_cons_of_mem a hy))).mpr
          (fun x hx => hall x (Or.inr hx))
      rw [ha0, hl0, add_zero]
/-- Every term of the entropy sum is non-positive. -/
lemma entropy_term_nonpos (xs : List ℕ) (x : ℕ) :
    ((xs.count x : ℝ) / xs.length) * Real.log ((xs.count x : ℝ) / xs.length) ≤ 0 := by
  have h0 : (0 : ℝ) ≤ (xs.count x : ℝ) / xs.length := by positivity
  rcases Nat.eq_zero_or_pos xs.length with hlen | hlen
  · rw [hlen]
    norm_num
  · have h1 : (xs.count x : ℝ) / xs.length ≤ 1 := by
      rw [div_le_one (by exact_mod_cast hlen)]
      exact_mod_cast xs.count_le_length x
    have := Real.log_nonpos h0 h1
    nlinarith
/-- The marginal entropy of a non-empty label sequence vanishes exactly when
the sequence carries a single distinct label. -/
lemma entropyVal_eq_zero_iff (xs : List ℕ) (hxs : xs ≠ []) :
    entropyVal xs = 0 ↔ xs.dedup.length ≤ 1 := by
  have hn : 0 < xs.length := List.length_pos.mpr hxs
  have hn' : (0 : ℝ) < xs.length := by exact_mod_cast hn
  have hterms : ∀ y ∈ xs.dedup.map (fun x =>
      ((xs.count x : ℝ) / xs.length) * Real.log ((xs.count x : ℝ) / xs.length)), y ≤ 0 := by
    intro y hy
    obtain ⟨x, _, rfl⟩ := List.mem_map.mp hy
    exact entropy_term_nonpos xs x
  have hiff := list_sum_nonpos_eq_zero_iff _ hterms
  constructor
  · intro h0
    by_contra hlong
    push_neg at hlong
    have hsum : (xs.dedup.map (fun x =>
        ((xs.count x : ℝ) / xs.length) * Real.log ((xs.count x : ℝ) / xs.length))).sum = 0 := by
      unfold entropyVal at h0
      linarith
    have hall := hiff.mp hsum
    obtain ⟨x, y, rest, hd⟩ : ∃ x y rest, xs.dedup = x :: y :: rest := by
      match hdd : xs.dedup with
      | [] => rw [hdd] at hlong; simp at hlong
      | [x] => rw [hdd] at hlong; simp at hlong
      | x :: y :: rest => exact ⟨x, y, rest, rfl⟩
    have hnodup := xs.nodup_dedup
    rw [hd] at hnodup
    have hxy : x ≠ y := by
      intro hxy
      exact (List.nodup_cons.mp hnodup).1 (hxy ▸ List.mem_cons_self y rest)
    have hxmem : x ∈ xs := List.mem_dedup.mp (hd ▸ List.mem_cons_self x (y :: rest))
    have hymem : y ∈ xs := List.mem_dedup.mp (hd ▸ List.mem_cons_of_mem x (List.mem_cons_self y rest))
    have hcx : 0 < xs.count x := List.count_pos_iff.mpr hxmem
    have hcy : 0 < xs.count y := List.count_pos_iff.mpr hymem
    have hsum_counts : xs.count x + xs.count y ≤ xs.length := by
      have hsub : ({x, y} : Finset ℕ) ⊆ xs.toFinset := by
        intro z hz
        rcases Finset.mem_insert.mp hz with rfl | hz
        · exact List.mem_toFinset.mpr hxmem
        · rw [Finset.mem_singleton.mp hz]
          exact List.mem_toFinset.mpr hymem
      calc xs.count x + xs.count y = ∑ z ∈ ({x, y} : Finset ℕ), xs.count z := by
            rw [Finset.sum_pair hxy]
        _ ≤ ∑ z ∈ xs.toFinset, xs.count z :=
            Finset.sum_le_sum_of_subset hsub
        _ = xs.length := by
            have hms := Multiset.toFinset_sum_count_eq (↑xs : Multiset ℕ)
            simpa using hms
    have hterm_x := hall _ (List.mem_map.mpr ⟨x, hd ▸ List.mem_cons_self x (y :: rest), rfl⟩)
    have hfrac_pos : (0 : ℝ) < (xs.count x : ℝ) / xs.length := by positivity
    have hlog0 : Real.log ((xs.count x : ℝ) / xs.length) = 0 := by
      rcases mul_eq_zero.mp hterm_x with hf | hl
      · exact absurd hf (ne_of_gt hfrac_pos)
      · exact hl
    have hfrac1 : (xs.count x : ℝ) / xs.length = 1 := by
      rcases Real.log_eq_zero.mp hlog0 with h | h | h
      · exact absurd h (ne_of_gt hfrac_pos)
      · exact h
      · linarith
    have hcxlen : xs.count x = xs.length := by
      field_simp at hfrac1
      exact_mod_cast hfrac1
    omega
  · intro hlen1
    have hdedup_ne : xs.dedup ≠ [] := fun hdd => hxs ((List.dedup_eq_nil xs).mp hdd)
    obtain ⟨x, hd⟩ : ∃ x, xs.dedup = [x] := by
      match hdd : xs.dedup with
      | [] => exact absurd hdd hdedup_ne
      | [x] => exact ⟨x, rfl⟩
      | x :: y :: rest => rw [hdd] at hlen1; simp at hlen1
    have hall : ∀ y ∈ xs, y = x := by
      intro y hy
      have : y ∈ xs.dedup := List.mem_dedup.mpr hy
      rw [hd] at this
      exact List.mem_singleton.mp this
    have hcx : xs.count x = xs.length := List.count_eq_length.mpr (fun y hy => (hall y hy).symm)
    unfold entropyVal
    rw [hd]
    simp only [List.map_cons, List.map_nil, List.sum_cons, List.sum_nil, add_zero]
    rw [hcx, div_self (ne_of_gt hn'), Real.log_one, mul_zero, neg_zero]
/-- C5: on valid inputs `normalized_mutual_information` returns the Mutual
Information divided by the arithmetic mean of the marginal entropies, and
returns exactly 1.0 when both marginal entropies are 0. -/
theorem C5_nmi_arithmetic_mean (t p : List ℕ) (ht : t ≠ []) (hlen : t.length = p.length) :
    (entropyVal t = 0 ∧ entropyVal p = 0 → normalized_mutual_information t p = .ok 1) ∧
    (¬(entropyVal t = 0 ∧ entropyVal p = 0) →
      normalized_mutual_information t p =
        .ok (mutualInfoVal t p / ((entropyVal t + entropyVal p) / 2))) := by
  have hp : p ≠ [] := by
    intro hp0
    rw [hp0] at hlen
    exact ht (List.length_eq_zero.mp hlen)
  have hlen0 : ¬(t.length = 0 ∨ t.length ≠ p.length) := by
    push_neg
    exact ⟨fun h0 => ht (List.length_eq_zero.mp h0), hlen⟩
  have hcond : (t.dedup.length ≤ 1 ∧ p.dedup.length ≤ 1) ↔
      (entropyVal t = 0 ∧ entropyVal p = 0) := by
    rw [entropyVal_eq_zero_iff t ht, entropyVal_eq_zero_iff p hp]
  constructor
  · intro hzero
    unfold normalized_mutual_information normalizedMutualInfoVal
    rw [if_neg hlen0, if_pos (hcond.mpr hzero)]
  · intro hnzero
    unfold normalized_mutual_information normalizedMutualInfoVal
    rw [if_neg hlen0, if_neg (fun hc => hnzero (hcond.mp hc))]
/-- Witness for C5: a single point is a single class and single cluster, so
both entropies vanish and the NMI is 1.0 by convention. -/
theorem C5_nmi_arithmetic_mean_witness :
    normalized_mutual_information [0] [5] = .ok 1 := by
  have h1 : entropyVal [0] = 0 := (entropyVal_eq_zero_iff [0] (by decide)).mpr (by decide)
  have h2 : entropyVal [5] = 0 := (entropyVal_eq_zero_iff [5] (by decide)).mpr (by decide)
  exact (C5_nmi_arithmetic_mean [0] [5] (by decide) (by decide)).1 ⟨h1, h2⟩

/-- C8: each label-based metric fails with `InvalidInput` when the two
sequences are empty or their lengths differ. -/
theorem C8_invalid_input (t p : List ℕ) (h : (t = [] ∧ p = []) ∨ t.length ≠ p.length) :
    purity t p = .error .invalidInput ∧
    rand_index t p = .error .invalidInput ∧
    adjusted_rand_index t p = .error .invalidInput ∧
    mutual_information t p = .error .invalidInput ∧
    normalized_mutual_information t p = .error .invalidInput := by
  have hg : t.length = 0 ∨ t.length ≠ p.length := by
    rcases h with ⟨h1, _⟩ | h2
    · left
      rw [h1]
      rfl
    · right
      exact h2
  refine ⟨?_, ?_, ?_, ?_, ?_⟩
  · unfold purity
    rw [if_pos hg]
  · unfold rand_index
    rw [if_pos hg]
  · unfold adjusted_rand_index
    rw [if_pos hg]
  · unfold mutual_information
    rw [if_pos hg]
  · unfold normalized_mutual_information
    rw [if_pos hg]
/-- Witness for C8: two empty sequences make every label-based metric fail
with `InvalidInput`. -/
theorem C8_invalid_input_witness :
    purity ([] : List ℕ) [] = .error .invalidInput ∧
    rand_index ([] : List ℕ) [] = .error .invalidInput ∧
    adjusted_rand_index ([] : List ℕ) [] = .error .invalidInput ∧
    mutual_information ([] : List ℕ) [] = .error .invalidInput ∧
    normalized_mutual_information ([] : List ℕ) [] = .error .invalidInput :=
  C8_invalid_input [] [] (Or.inl ⟨rfl, rfl⟩)

/-! ## Double counting for the Rand Index refinement -/

/-- The positions of `range n` read through `getD` reproduce the list. -/
lemma map_getD_range {α : Type} (xs : List α) (d : α) :
    (List.range xs.length).map (fun k => xs.getD k d) = xs := by
  apply List.ext_getElem
  · simp
  · intro i h1 h2
    simp only [List.getElem_map, List.getElem_range]
    exact List.getD_eq_getElem xs d h2
/-- The number of positions holding a value equals the count of that
value. -/
lemma card_filter_getD_eq {α : Type} [DecidableEq α] (xs : List α) (d : α) (v : α) :
    ((Finset.range xs.length).filter (fun k => xs.getD k d = v)).card = xs.count v := by
  have hmap : (↑((List.range xs.length).map (fun k => xs.getD k d)) : Multiset α) = ↑xs := by
    rw [map_getD_range]
  have h1 : xs.count v = Multiset.count v (↑xs : Multiset α) :=
    (Multiset.coe_count v xs).symm
  rw [h1, ← hmap, ← Multiset.map_coe, Multiset.count_map]
  rw [Finset.card_def, Finset.filter_val, Finset.range_val, ← Multiset.coe_range]
  congr 1
  apply Multiset.filter_congr
  intro x _
  exact eq_comm

/-- Counting same-value ordered pairs of positions fiberwise over the value
gives the sum of squared counts. -/
lemma card_samePairs {α : Type} [DecidableEq α] (xs : List α) (d : α) :
    ((Finset.range xs.length ×ˢ Finset.range xs.length).filter
      (fun q => xs.getD q.1 d = xs.getD q.2 d)).card
    = ∑ v ∈ xs.toFinset, (xs.count v) ^ 2 := by
  have hmem : ∀ q ∈ (Finset.range xs.length ×ˢ Finset.range xs.length).filter
      (fun q => xs.getD q.1 d = xs.getD q.2 d),
      (fun q : ℕ × ℕ => xs.getD q.1 d) q ∈ xs.toFinset := by
    intro q hq
    rw [Finset.mem_filter, Finset.mem_product, Finset.mem_range, Finset.mem_range] at hq
    obtain ⟨⟨h1, _⟩, _⟩ := hq
    rw [List.mem_toFinset]
    show xs.getD q.1 d ∈ xs
    rw [List.getD_eq_getElem xs d h1]
    exact List.getElem_mem h1
  rw [Finset.card_eq_sum_card_fiberwise hmem]
  apply Finset.sum_congr rfl
  intro v _
  rw [Finset.filter_filter]
  have hcongr : ((Finset.range xs.length ×ˢ Finset.range xs.length).filter
      (fun q => xs.getD q.1 d = xs.getD q.2 d ∧ xs.getD q.1 d = v)) =
      ((Finset.range xs.length ×ˢ Finset.range xs.length).filter
      (fun q : ℕ × ℕ => xs.getD q.1 d = v ∧ xs.getD q.2 d = v)) := by
    apply Finset.filter_congr
    intro q _
    constructor
    · rintro ⟨h1, h2⟩
      exact ⟨h2, h1.symm.trans h2⟩
    · rintro ⟨h1, h2⟩
      exact ⟨h1.trans h2.symm, h1⟩
  rw [hcongr, pow_two,
    Finset.filter_product (fun a => xs.getD a d = v) (fun b => xs.getD b d = v),
    Finset.card_product, card_filter_getD_eq]
/-- Ordered same-value pairs split as twice the increasing pairs plus the
diagonal. -/
lemma card_samePairs_split {α : Type} [DecidableEq α] (xs : List α) (d : α) :
    ((Finset.range xs.length ×ˢ Finset.range xs.length).filter
      (fun q => xs.getD q.1 d = xs.getD q.2 d)).card
    = 2 * ((Finset.range xs.length ×ˢ Finset.range xs.length).filter
        (fun q => q.1 < q.2 ∧ xs.getD q.1 d = xs.getD q.2 d)).card + xs.length := by
  classical
  set n := xs.length with hn
  set sq := Finset.range n ×ˢ Finset.range n with hsq
  set S := sq.filter (fun q : ℕ × ℕ => xs.getD q.1 d = xs.getD q.2 d) with hS
  have hsplit : (S.filter (fun q : ℕ × ℕ => q.1 < q.2)).card
      + (S.filter (fun q : ℕ × ℕ => ¬q.1 < q.2)).card = S.card :=
    Finset.filter_card_add_filter_neg_card_eq_card _
  have hneg : S.filter (fun q : ℕ × ℕ => ¬q.1 < q.2)
      = S.filter (fun q : ℕ × ℕ => q.1 = q.2) ∪ S.filter (fun q : ℕ × ℕ => q.2 < q.1) := by
    rw [← Finset.filter_or]
    apply Finset.filter_congr
    intro q _
    constructor
    · intro h
      omega
    · intro h
      omega
  have hdisj : Disjoint (S.filter (fun q : ℕ × ℕ => q.1 = q.2))
      (S.filter (fun q : ℕ × ℕ => q.2 < q.1)) := by
    rw [Finset.disjoint_left]
    intro q h1 h2
    rw [Finset.mem_filter] at h1 h2
    omega
  have hdiag : (S.filter (fun q : ℕ × ℕ => q.1 = q.2)).card = n := by
    have himg : S.filter (fun q : ℕ × ℕ => q.1 = q.2)
        = (Finset.range n).image (fun k => (k, k)) := by
      ext q
      rw [Finset.mem_filter, hS, Finset.mem_filter, hsq, Finset.mem_product,
        Finset.mem_range, Finset.mem_range, Finset.mem_image]
      constructor
      · rintro ⟨⟨⟨hq1, hq2⟩, _⟩, heq⟩
        exact ⟨q.1, Finset.mem_range.mpr hq1, Prod.ext rfl heq⟩
      · rintro ⟨k, hk, rfl⟩
        exact ⟨⟨⟨Finset.mem_range.mp hk, Finset.mem_range.mp hk⟩, rfl⟩, rfl⟩
    rw [himg, Finset.card_image_of_injective _ (fun a b hab => (Prod.mk.injEq a a b b ▸ hab).1),
      Finset.card_range]
  have hswap : (S.filter (fun q : ℕ × ℕ => q.2 < q.1)).card
      = (S.filter (fun q : ℕ × ℕ => q.1 < q.2)).card := by
    apply Finset.card_nbij' (fun q => (q.2, q.1)) (fun q => (q.2, q.1))
    · intro q hq
      rw [Finset.mem_filter, hS, Finset.mem_filter, hsq, Finset.mem_product] at hq ⊢
      obtain ⟨⟨⟨hq1, hq2⟩, hsame⟩, hlt⟩ := hq
      exact ⟨⟨⟨hq2, hq1⟩, hsame.symm⟩, hlt⟩
    · intro q hq
      rw [Finset.mem_filter, hS, Finset.mem_filter, hsq, Finset.mem_product] at hq ⊢
      obtain ⟨⟨⟨hq1, hq2⟩, hsame⟩, hlt⟩ := hq
      exact ⟨⟨⟨hq2, hq1⟩, hsame.symm⟩, hlt⟩
    · intro q _
      rfl
    · intro q _
      rfl
  have hfilter_eq : S.filter (fun q : ℕ × ℕ => q.1 < q.2)
      = sq.filter (fun q : ℕ × ℕ => q.1 < q.2 ∧ xs.getD q.1 d = xs.getD q.2 d) := by
    rw [hS, Finset.filter_filter]
    apply Finset.filter_congr
    intro q _
    exact and_comm
  rw [← hfilter_eq]
  rw [← hsplit, hneg, Finset.card_union_of_disjoint hdisj, hdiag, hswap]
  ring
/-- `2 * C(c, 2) + c = c ^ 2`. -/
lemma two_mul_choose_two (c : ℕ) : 2 * c.choose 2 + c = c ^ 2 := by
  induction c with
  | zero => rfl
  | succ c ih =>
    have h1 : (c + 1).choose 2 = c.choose 1 + c.choose 2 := Nat.choose_succ_succ c 1
    rw [Nat.choose_one_right] at h1
    have h2 : (c + 1) ^ 2 = c ^ 2 + 2 * c + 1 := by ring
    omega
/-- The sum over distinct values of `C(count, 2)` counts the increasing
position pairs holding equal values. -/
lemma sum_choose_two_eq {α : Type} [DecidableEq α] (xs : List α) (d : α) :
    ∑ v ∈ xs.toFinset, (xs.count v).choose 2 =
      ((Finset.range xs.length ×ˢ Finset.range xs.length).filter
        (fun q => q.1 < q.2 ∧ xs.getD q.1 d = xs.getD q.2 d)).card := by
  have hsq := card_samePairs xs d
  have hsplit := card_samePairs_split xs d
  have hlen : ∑ v ∈ xs.toFinset, xs.count v = xs.length := by
    have hms := Multiset.toFinset_sum_count_eq (↑xs : Multiset α)
    simpa using hms
  have hcombine : ∑ v ∈ xs.toFinset, ((xs.count v).choose 2 * 2 + xs.count v)
      = ∑ v ∈ xs.toFinset, (xs.count v) ^ 2 := by
    apply Finset.sum_congr rfl
    intro v _
    have := two_mul_choose_two (xs.count v)
    omega
  rw [Finset.sum_add_distrib, ← Finset.sum_mul] at hcombine
  omega

/-- `List.count` agrees between the ambient `BEq` instance and the one
derived from decidable equality. -/
lemma count_dec_eq_count {α : Type} [BEq α] [LawfulBEq α] [DecidableEq α] (x : α)
    (l : List α) :
    @List.count α instBEqOfDecidableEq x l = l.count x := by
  have hLB : @LawfulBEq α instBEqOfDecidableEq := inferInstance
  induction l with
  | nil => rfl
  | cons a l ih =>
    rw [@List.count_cons α instBEqOfDecidableEq x a l, @List.count_cons α _ x a l, ih]
    by_cases h : a = x
    · subst h
      rw [@beq_self_eq_true α instBEqOfDecidableEq hLB, beq_self_eq_true]
    · rw [(@beq_eq_false_iff_ne α instBEqOfDecidableEq hLB a x).mpr h,
        show (a == x) = false from beq_eq_false_iff_ne.mpr h]

/-- The contingency `sum(C(n_ij, 2))` counts the increasing position pairs
agreeing in both sequences. -/
lemma sumNij2_eq_card (t p : List ℕ) (h : t.length = p.length) :
    sumNij2 t p = ((Finset.range t.length ×ˢ Finset.range t.length).filter
      (fun q => q.1 < q.2 ∧ t.getD q.1 0 = t.getD q.2 0 ∧ p.getD q.1 0 = p.getD q.2 0)).card := by
  have hlen : (t.zip p).length = t.length := by
    rw [List.length_zip, ← h, min_self]
  have hz := sum_choose_two_eq (t.zip p) ((0, 0) : ℕ × ℕ)
  rw [hlen] at hz
  have hpred : ∀ q ∈ Finset.range t.length ×ˢ Finset.range t.length,
      (q.1 < q.2 ∧ (t.zip p).getD q.1 (0, 0) = (t.zip p).getD q.2 (0, 0)) ↔
      (q.1 < q.2 ∧ t.getD q.1 0 = t.getD q.2 0 ∧ p.getD q.1 0 = p.getD q.2 0) := by
    intro q hq
    rw [Finset.mem_product, Finset.mem_range, Finset.mem_range] at hq
    obtain ⟨h1, h2⟩ := hq
    have hg : ∀ k, k < t.length → (t.zip p).getD k (0, 0) = (t.getD k 0, p.getD k 0) := by
      intro k hk
      have hk1 : k < (t.zip p).length := by omega
      have hk2 : k < p.length := by omega
      rw [List.getD_eq_getElem _ _ hk1, List.getD_eq_getElem _ _ hk,
        List.getD_eq_getElem _ _ hk2]
      exact List.getElem_zip
    rw [hg q.1 h1, hg q.2 h2, Prod.mk.injEq]
  unfold sumNij2
  rw [Finset.sum_congr rfl (fun ij _ => by rw [← count_dec_eq_count ij (t.zip p)]), hz]
  exact congrArg Finset.card (Finset.filter_congr hpred)
/-- The number of increasing position pairs below `n` is `C(n, 2)`. -/
lemma card_lt_pairs (n : ℕ) :
    ((Finset.range n ×ˢ Finset.range n).filter (fun q : ℕ × ℕ => q.1 < q.2)).card
      = n.choose 2 := by
  rcases Nat.eq_zero_or_pos n with rfl | hn
  · simp
  · have hrep := sum_choose_two_eq (List.replicate n (0 : ℕ)) (0 : ℕ)
    have hlen : (List.replicate n (0 : ℕ)).length = n := List.length_replicate n 0
    rw [hlen] at hrep
    have htf : (List.replicate n (0 : ℕ)).toFinset = {0} :=
      List.toFinset_replicate_of_ne_zero (Nat.pos_iff_ne_zero.mp hn)
    have hcnt : (List.replicate n (0 : ℕ)).count 0 = n := List.count_replicate_self 0 n
    rw [htf, Finset.sum_singleton, count_dec_eq_count, hcnt] at hrep
    have hgd : ∀ k, (List.replicate n (0 : ℕ)).getD k 0 = 0 := by
      intro k
      rcases lt_or_ge k n with hk | hk
      · rw [List.getD_eq_getElem _ _ (by rw [hlen]; exact hk)]
        simp
      · exact List.getD_eq_default _ _ (by rw [hlen]; exact hk)
    rw [hrep]
    exact congrArg Finset.card
      (Finset.filter_congr (fun q _ => by rw [hgd q.1, hgd q.2]; simp))

/-- `sum(C(a_i, 2))` counts the increasing position pairs with equal
values. -/
lemma sumA2_eq_card (t : List ℕ) :
    sumA2 t = ((Finset.range t.length ×ˢ Finset.range t.length).filter
      (fun q => q.1 < q.2 ∧ t.getD q.1 0 = t.getD q.2 0)).card := by
  unfold sumA2
  rw [Finset.sum_congr rfl (fun i _ => by rw [← count_dec_eq_count i t])]
  exact sum_choose_two_eq t 0
/-- Inclusion–exclusion over the pair classes: agreements plus both
same-marginal pair counts equal twice the together-in-both pairs plus all
pairs. -/
lemma agree_card_identity (t p : List ℕ) (h : t.length = p.length) :
    (agreePairs t p).card + sumA2 t + sumA2 p
      = 2 * sumNij2 t p + t.length.choose 2 := by
  classical
  have hAt := sumA2_eq_card t
  have hAp : sumA2 p = ((Finset.range t.length ×ˢ Finset.range t.length).filter
      (fun q => q.1 < q.2 ∧ p.getD q.1 0 = p.getD q.2 0)).card := by
    have := sumA2_eq_card p
    rw [← h] at this
    exact this
  have hB := sumNij2_eq_card t p h
  have hT := card_lt_pairs t.length
  set sq := Finset.range t.length ×ˢ Finset.range t.length with hsq
  set U := sq.filter (fun q : ℕ × ℕ => q.1 < q.2) with hU
  set st : ℕ × ℕ → Prop := fun q => t.getD q.1 0 = t.getD q.2 0 with hst
  set sp : ℕ × ℕ → Prop := fun q => p.getD q.1 0 = p.getD q.2 0 with hsp
  have hUt : sq.filter (fun q : ℕ × ℕ => q.1 < q.2 ∧ st q) = U.filter st :=
    (Finset.filter_filter _ _ _).symm
  have hUp : sq.filter (fun q : ℕ × ℕ => q.1 < q.2 ∧ sp q) = U.filter sp :=
    (Finset.filter_filter _ _ _).symm
  have hUb : sq.filter (fun q : ℕ × ℕ => q.1 < q.2 ∧ st q ∧ sp q)
      = U.filter (fun q => st q ∧ sp q) :=
    (Finset.filter_filter _ _ _).symm
  have hUa : agreePairs t p
      = U.filter (fun q => (st q ∧ sp q) ∨ (¬st q ∧ ¬sp q)) := by
    unfold agreePairs
    exact (Finset.filter_filter _ _ _).symm
  have hagree : (agreePairs t p).card
      = (U.filter (fun q => st q ∧ sp q)).card
        + (U.filter (fun q => ¬st q ∧ ¬sp q)).card := by
    rw [hUa, Finset.filter_or, Finset.card_union_of_disjoint]
    rw [Finset.disjoint_left]
    intro q h1 h2
    rw [Finset.mem_filter] at h1 h2
    exact h2.2.1 h1.2.1
  have hsplitU : (U.filter (fun q => st q ∨ sp q)).card
      + (U.filter (fun q => ¬(st q ∨ sp q))).card = U.card :=
    Finset.filter_card_add_filter_neg_card_eq_card _
  have hnegcongr : U.filter (fun q => ¬(st q ∨ sp q))
      = U.filter (fun q => ¬st q ∧ ¬sp q) := by
    apply Finset.filter_congr
    intro q _
    constructor
    · intro hq
      push_neg at hq
      exact hq
    · intro hq hor
      rcases hor with h1 | h2
      · exact hq.1 h1
      · exact hq.2 h2
  have hincl : (U.filter (fun q => st q ∨ sp q)).card
      + (U.filter (fun q => st q ∧ sp q)).card
      = (U.filter st).card + (U.filter sp).card := by
    rw [Finset.filter_or, Finset.filter_and]
    exact Finset.card_union_add_card_inter _ _
  rw [hagree, hAt, hAp, hUt, hUp, hB, hUb, ← hT]
  rw [hnegcongr] at hsplitU
  omega
/-- C3: the contingency-table formulation of the Rand Index coincides with
the direct pairwise definition for all equal-length inputs with at least two
points. -/
theorem C3_rand_index_pairwise_refinement (t p : List ℕ) (hlen : t.length = p.length)
    (hN : 2 ≤ t.length) :
    rand_index t p = .ok (randIndexPairwise t p) := by
  unfold rand_index
  rw [if_neg (by push_neg; exact ⟨by omega, hlen⟩)]
  refine congrArg Except.ok ?_
  unfold randIndexPairwise
  have hid := agree_card_identity t p hlen
  have hnum : (sumNij2 t p : ℚ) +
      ((t.length.choose 2 : ℚ) - (sumA2 t : ℚ) - (sumA2 p : ℚ) + (sumNij2 t p : ℚ))
      = ((agreePairs t p).card : ℚ) := by
    have hcast : ((agreePairs t p).card : ℚ) + (sumA2 t : ℚ) + (sumA2 p : ℚ)
        = 2 * (sumNij2 t p : ℚ) + (t.length.choose 2 : ℚ) := by
      exact_mod_cast hid
    linarith
  rw [hnum]
/-- Witness for C3: a concrete two-point instance of the refinement. -/
theorem C3_rand_index_pairwise_refinement_witness :
    rand_index [0, 1] [0, 0] = .ok (randIndexPairwise [0, 1] [0, 0]) :=
  C3_rand_index_pairwise_refinement [0, 1] [0, 0] rfl (by norm_num)

/-- The minimum of a list of non-negative reals is non-negative. -/
lemma listMinR_nonneg : ∀ l : List ℝ, (∀ x ∈ l, 0 ≤ x) → 0 ≤ listMinR l
  | [], _ => le_refl 0
  | [x], h => by
    rw [listMinR]
    exact h x (List.mem_singleton.mpr rfl)
  | x :: y :: l, h => by
    rw [listMinR]
    exact le_min (h x (List.mem_cons_self x (y :: l)))
      (listMinR_nonneg (y :: l) (fun z hz => h z (List.mem_cons_of_mem x hz)))

/-- `a(i)` is non-negative for a non-negative distance function. -/
lemma silA_nonneg (d : List ℚ → List ℚ → ℝ) (features : List (List ℚ))
    (labels : List ℕ) (i : ℕ) (hd : ∀ x y, 0 ≤ d x y) :
    0 ≤ silA d features labels i := by
  unfold silA
  split_ifs
  · exact le_refl 0
  · exact div_nonneg (Finset.sum_nonneg (fun k _ => hd _ _)) (Nat.cast_nonneg _)

/-- `b(i)` is non-negative for a non-negative distance function. -/
lemma silB_nonneg (d : List ℚ → List ℚ → ℝ) (features : List (List ℚ))
    (labels : List ℕ) (i : ℕ) (hd : ∀ x y, 0 ≤ d x y) :
    0 ≤ silB d features labels i := by
  unfold silB
  apply listMinR_nonneg
  intro x hx
  obtain ⟨c, _, rfl⟩ := List.mem_map.mp hx
  exact div_nonneg (Finset.sum_nonneg (fun k _ => hd _ _)) (Nat.cast_nonneg _)

/-- Each silhouette coefficient lies in `[-1, 1]`. -/
lemma silS_bounds (d : List ℚ → List ℚ → ℝ) (features : List (List ℚ))
    (labels : List ℕ) (i : ℕ) (hd : ∀ x y, 0 ≤ d x y) :
    -1 ≤ silS d features labels i ∧ silS d features labels i ≤ 1 := by
  have ha := silA_nonneg d features labels i hd
  have hb := silB_nonneg d features labels i hd
  unfold silS
  split_ifs with h
  · norm_num
  · have hm : 0 < max (silA d features labels i) (silB d features labels i) :=
      lt_of_le_of_ne (le_trans ha (le_max_left _ _)) (Ne.symm h)
    constructor
    · rw [le_div_iff₀ hm]
      have h1 := le_max_left (silA d features labels i) (silB d features labels i)
      linarith
    · rw [div_le_one hm]
      have h2 := le_max_right (silA d features labels i) (silB d features labels i)
      linarith
/-- C6: on valid inputs (matching lengths, at least two clusters) the
silhouette score is the mean of the per-point coefficients
`s(i) = (b(i) - a(i)) / max(a(i), b(i))` and always lies in `[-1, 1]`. -/
theorem C6_silhouette_mean_in_unit_interval (features : List (List ℚ))
    (labels : List ℕ) (hlen : features.length = labels.length)
    (hK : 2 ≤ labels.dedup.length) :
    silhouette_score features labels = .ok (silhouetteVal euclid features labels) ∧
    silhouetteVal euclid features labels =
      (∑ i ∈ Finset.range labels.length, silS euclid features labels i)
        / (labels.length : ℝ) ∧
    -1 ≤ silhouetteVal euclid features labels ∧
    silhouetteVal euclid features labels ≤ 1 := by
  have hne : labels ≠ [] := by
    intro h0
    rw [h0] at hK
    simp at hK
  have hN : 0 < labels.length := List.length_pos.mpr hne
  have hN' : (0 : ℝ) < (labels.length : ℝ) := by exact_mod_cast hN
  have hd : ∀ x y : List ℚ, 0 ≤ euclid x y := fun x y => Real.sqrt_nonneg _
  have hbounds : ∀ i, -1 ≤ silS euclid features labels i ∧
      silS euclid features labels i ≤ 1 :=
    fun i => silS_bounds euclid features labels i hd
  refine ⟨?_, rfl, ?_, ?_⟩
  · unfold silhouette_score
    rw [if_neg (by push_neg; exact ⟨by omega, hlen⟩), if_neg (by omega)]
  · unfold silhouetteVal
    rw [le_div_iff₀ hN']
    have hsum : ∑ i ∈ Finset.range labels.length, (-1 : ℝ)
        ≤ ∑ i ∈ Finset.range labels.length, silS euclid features labels i :=
      Finset.sum_le_sum (fun i _ => (hbounds i).1)
    rw [Finset.sum_const, Finset.card_range, nsmul_eq_mul] at hsum
    linarith
  · unfold silhouetteVal
    rw [div_le_one hN']
    have hsum : ∑ i ∈ Finset.range labels.length, silS euclid features labels i
        ≤ ∑ i ∈ Finset.range labels.length, (1 : ℝ) :=
      Finset.sum_le_sum (fun i _ => (hbounds i).2)
    rw [Finset.sum_const, Finset.card_range, nsmul_eq_mul, mul_one] at hsum
    linarith
/-- Witness for C6: a concrete two-point, two-cluster instance. -/
theorem C6_silhouette_mean_in_unit_interval_witness :
    silhouette_score [[0], [1]] [0, 1] = .ok (silhouetteVal euclid [[0], [1]] [0, 1]) ∧
    -1 ≤ silhouetteVal euclid [[0], [1]] [0, 1] ∧
    silhouetteVal euclid [[0], [1]] [0, 1] ≤ 1 := by
  obtain ⟨h1, _, h3, h4⟩ :=
    C6_silhouette_mean_in_unit_interval [[0], [1]] [0, 1] rfl (by decide)
  exact ⟨h1, h3, h4⟩

/-- C7: the Calinski-Harabasz index returns `(B / (K-1)) / (W / (N-K))`
whenever `1 < K < N` and fails with `InsufficientClusters` on every other
input. -/
theorem C7_calinski_harabasz_guard (features : List (List ℚ)) (labels : List ℕ) :
    (1 < labels.dedup.length ∧ labels.dedup.length < labels.length →
      calinski_harabasz_index features labels =
        .ok ((chB features labels / ((labels.dedup.length : ℚ) - 1))
          / (chW features labels / ((labels.length : ℚ) - (labels.dedup.length : ℚ))))) ∧
    (¬(1 < labels.dedup.length ∧ labels.dedup.length < labels.length) →
      calinski_harabasz_index features labels = .error .insufficientClusters) := by
  constructor <;> intro h <;> unfold calinski_harabasz_index
  · rw [if_pos h]
  · rw [if_neg h]
/-- Witness for C7: three points in two clusters hit the formula branch, a
single point hits the `InsufficientClusters` branch. -/
theorem C7_calinski_harabasz_guard_witness :
    calinski_harabasz_index [[0], [0], [1]] [0, 0, 1] =
      .ok ((chB [[0], [0], [1]] [0, 0, 1] / ((([0, 0, 1] : List ℕ).dedup.length : ℚ) - 1))
        / (chW [[0], [0], [1]] [0, 0, 1]
          / ((([0, 0, 1] : List ℕ).length : ℚ) - (([0, 0, 1] : List ℕ).dedup.length : ℚ)))) ∧
    calinski_harabasz_index [[0]] [0] = .error .insufficientClusters :=
  ⟨(C7_calinski_harabasz_guard [[0], [0], [1]] [0, 0, 1]).1 (by decide),
   (C7_calinski_harabasz_guard [[0]] [0]).2 (by decide)⟩

/-! ## Invariance under injective relabelings (C9, C10) -/

/-- `dedup` commutes with mapping an injective function. -/
lemma dedup_map_of_injective {σ : ℕ → ℕ} (hσ : Function.Injective σ) :
    ∀ l : List ℕ, (l.map σ).dedup = l.dedup.map σ := by
  intro l
  induction l with
  | nil => rfl
  | cons a l ih =>
    rw [List.map_cons]
    by_cases h : a ∈ l
    · rw [List.dedup_cons_of_mem h, List.dedup_cons_of_mem (List.mem_map_of_mem σ h), ih]
    · have hnot : σ a ∉ l.map σ := by
        intro hmem
        obtain ⟨b, hb, he⟩ := List.mem_map.mp hmem
        rw [hσ he] at hb
        exact h hb
      rw [List.dedup_cons_of_not_mem h, List.dedup_cons_of_not_mem hnot, List.map_cons, ih]
/-- Reading a mapped list at an in-range position. -/
lemma getD_map_lt (σ : ℕ → ℕ) (l : List ℕ) (k : ℕ) (hk : k < l.length) :
    (l.map σ).getD k 0 = σ (l.getD k 0) := by
  rw [List.getD_eq_getElem _ _ (by rw [List.length_map]; exact hk),
    List.getD_eq_getElem _ _ hk, List.getElem_map]
/-- Counting a mapped value in a mapped list. -/
lemma count_map_inj {σ : ℕ → ℕ} (hσ : Function.Injective σ) (l : List ℕ) (x : ℕ) :
    (l.map σ).count (σ x) = l.count x := by
  rw [← count_dec_eq_count (σ x) (l.map σ), ← count_dec_eq_count x l]
  exact List.count_map_of_injective l σ hσ x
/-- A mapped list's `toFinset` is the image of the original `toFinset`. -/
lemma list_toFinset_map {α β : Type} [DecidableEq α] [DecidableEq β] (f : α → β)
    (l : List α) : (l.map f).toFinset = l.toFinset.image f := by
  ext x
  simp
/-- Co-occurrence counts are preserved by injective relabelings of either
sequence. -/
lemma contCount_map {τ σ : ℕ → ℕ} (hτ : Function.Injective τ)
    (hσ : Function.Injective σ) (t p : List ℕ) (i j : ℕ) :
    contCount (t.map τ) (p.map σ) (τ i) (σ j) = contCount t p i j := by
  unfold contCount
  rw [List.zip_map, ← count_dec_eq_count ((τ i, σ j)) ((t.zip p).map (Prod.map τ σ)),
    ← count_dec_eq_count (i, j) (t.zip p)]
  exact List.count_map_of_injective (t.zip p) (Prod.map τ σ) (hτ.prodMap hσ) (i, j)
/-- `sum(C(a_i, 2))` is preserved by an injective relabeling. -/
lemma sumA2_map {τ : ℕ → ℕ} (hτ : Function.Injective τ) (t : List ℕ) :
    sumA2 (t.map τ) = sumA2 t := by
  unfold sumA2
  rw [list_toFinset_map, Finset.sum_image (fun x _ y _ h => hτ h)]
  exact Finset.sum_congr rfl (fun i _ => by rw [count_map_inj hτ])
/-- `sum(C(n_ij, 2))` is preserved by injective relabelings of both
sequences. -/
lemma sumNij2_map {τ σ : ℕ → ℕ} (hτ : Function.Injective τ)
    (hσ : Function.Injective σ) (t p : List ℕ) :
    sumNij2 (t.map τ) (p.map σ) = sumNij2 t p := by
  unfold sumNij2
  rw [List.zip_map, list_toFinset_map (Prod.map τ σ) (t.zip p),
    Finset.sum_image (fun x _ y _ h => (hτ.prodMap hσ) h)]
  refine Finset.sum_congr rfl (fun ij _ => ?_)
  rw [← count_dec_eq_count (Prod.map τ σ ij) ((t.zip p).map (Prod.map τ σ)),
    ← count_dec_eq_count ij (t.zip p),
    List.count_map_of_injective (t.zip p) (Prod.map τ σ) (hτ.prodMap hσ) ij]

/-- Purity is invariant under injective relabelings of either sequence. -/
lemma purity_map {τ σ : ℕ → ℕ} (hτ : Function.Injective τ)
    (hσ : Function.Injective σ) (t p : List ℕ) :
    purity (t.map τ) (p.map σ) = purity t p := by
  unfold purity
  rw [List.length_map, List.length_map]
  by_cases hg : t.length = 0 ∨ t.length ≠ p.length
  · rw [if_pos hg, if_pos hg]
  · rw [if_neg hg, if_neg hg]
    have hsum : ((p.map σ).dedup.map (fun j =>
        listMax ((t.map τ).dedup.map (fun i => contCount (t.map τ) (p.map σ) i j)))).sum
        = (p.dedup.map (fun j =>
          listMax (t.dedup.map (fun i => contCount t p i j)))).sum := by
      rw [dedup_map_of_injective hσ p, dedup_map_of_injective hτ t, List.map_map]
      refine congrArg List.sum (List.map_congr_left (fun j _ => ?_))
      show listMax ((t.dedup.map τ).map
        (fun i => contCount (t.map τ) (p.map σ) i (σ j))) = _
      rw [List.map_map]
      refine congrArg listMax (List.map_congr_left (fun i _ => ?_))
      exact contCount_map hτ hσ t p i j
    rw [hsum]
/-- The Rand Index is invariant under injective relabelings. -/
lemma rand_index_map {τ σ : ℕ → ℕ} (hτ : Function.Injective τ)
    (hσ : Function.Injective σ) (t p : List ℕ) :
    rand_index (t.map τ) (p.map σ) = rand_index t p := by
  unfold rand_index
  rw [List.length_map, List.length_map, sumNij2_map hτ hσ t p, sumA2_map hτ t,
    sumA2_map hσ p]
/-- The Adjusted Rand Index is invariant under injective relabelings. -/
lemma adjusted_rand_index_map {τ σ : ℕ → ℕ} (hτ : Function.Injective τ)
    (hσ : Function.Injective σ) (t p : List ℕ) :
    adjusted_rand_index (t.map τ) (p.map σ) = adjusted_rand_index t p := by
  unfold adjusted_rand_index ariPairsTogether ariExpected ariMaxIndex
  rw [List.length_map, List.length_map, sumNij2_map hτ hσ t p, sumA2_map hτ t,
    sumA2_map hσ p]
/-- The Mutual Information value is invariant under injective relabelings. -/
lemma mutualInfoVal_map {τ σ : ℕ → ℕ} (hτ : Function.Injective τ)
    (hσ : Function.Injective σ) (t p : List ℕ) :
    mutualInfoVal (t.map τ) (p.map σ) = mutualInfoVal t p := by
  unfold mutualInfoVal
  rw [dedup_map_of_injective hτ t, dedup_map_of_injective hσ p, List.length_map,
    List.map_map]
  refine congrArg List.sum (List.map_congr_left (fun i _ => ?_))
  show ((p.dedup.map σ).map (fun j => miTerm t.length
      (contCount (t.map τ) (p.map σ) (τ i) j) ((t.map τ).count (τ i))
      ((p.map σ).count j))).sum = _
  rw [List.map_map]
  refine congrArg List.sum (List.map_congr_left (fun j _ => ?_))
  show miTerm t.length (contCount (t.map τ) (p.map σ) (τ i) (σ j))
      ((t.map τ).count (τ i)) ((p.map σ).count (σ j)) = _
  rw [contCount_map hτ hσ t p i j, count_map_inj hτ, count_map_inj hσ]
/-- The marginal entropy is invariant under an injective relabeling. -/
lemma entropyVal_map {σ : ℕ → ℕ} (hσ : Function.Injective σ) (xs : List ℕ) :
    entropyVal (xs.map σ) = entropyVal xs := by
  unfold entropyVal
  rw [dedup_map_of_injective hσ xs, List.length_map, List.map_map]
  refine congrArg (fun s : ℝ => -s) (congrArg List.sum (List.map_congr_left (fun x _ => ?_)))
  show ((xs.map σ).count (σ x) : ℝ) / xs.length *
      Real.log (((xs.map σ).count (σ x) : ℝ) / xs.length) = _
  rw [count_map_inj hσ]
/-- Mutual Information (with validation) is invariant under injective
relabelings. -/
lemma mutual_information_map {τ σ : ℕ → ℕ} (hτ : Function.Injective τ)
    (hσ : Function.Injective σ) (t p : List ℕ) :
    mutual_information (t.map τ) (p.map σ) = mutual_information t p := by
  unfold mutual_information
  rw [List.length_map, List.length_map, mutualInfoVal_map hτ hσ t p]
/-- Normalized Mutual Information is invariant under injective
relabelings. -/
lemma normalized_mutual_information_map {τ σ : ℕ → ℕ} (hτ : Function.Injective τ)
    (hσ : Function.Injective σ) (t p : List ℕ) :
    normalized_mutual_information (t.map τ) (p.map σ)
      = normalized_mutual_information t p := by
  unfold normalized_mutual_information normalizedMutualInfoVal
  rw [List.length_map, List.length_map, mutualInfoVal_map hτ hσ t p,
    entropyVal_map hτ t, entropyVal_map hσ p, dedup_map_of_injective hτ t,
    dedup_map_of_injective hσ p, List.length_map, List.length_map]
/-- C10: every label-based metric is invariant under injective renamings of
the true labels and of the predicted cluster identifiers. -/
theorem C10_label_metrics_renaming_invariant (t p : List ℕ) (τ σ : ℕ → ℕ)
    (hτ : Function.Injective τ) (hσ : Function.Injective σ) :
    purity (t.map τ) (p.map σ) = purity t p ∧
    rand_index (t.map τ) (p.map σ) = rand_index t p ∧
    adjusted_rand_index (t.map τ) (p.map σ) = adjusted_rand_index t p ∧
    mutual_information (t.map τ) (p.map σ) = mutual_information t p ∧
    normalized_mutual_information (t.map τ) (p.map σ)
      = normalized_mutual_information t p :=
  ⟨purity_map hτ hσ t p, rand_index_map hτ hσ t p, adjusted_rand_index_map hτ hσ t p,
   mutual_information_map hτ hσ t p, normalized_mutual_information_map hτ hσ t p⟩

/-- Witness for C10: shifting the true labels by one and the cluster
identifiers by two leaves every label-based metric unchanged. -/
theorem C10_label_metrics_renaming_invariant_witness :
    purity ([0, 1].map (fun x => x + 1)) ([2, 2].map (fun x => x + 2))
      = purity [0, 1] [2, 2] ∧
    rand_index ([0, 1].map (fun x => x + 1)) ([2, 2].map (fun x => x + 2))
      = rand_index [0, 1] [2, 2] ∧
    adjusted_rand_index ([0, 1].map (fun x => x + 1)) ([2, 2].map (fun x => x + 2))
      = adjusted_rand_index [0, 1] [2, 2] ∧
    mutual_information ([0, 1].map (fun x => x + 1)) ([2, 2].map (fun x => x + 2))
      = mutual_information [0, 1] [2, 2] ∧
    normalized_mutual_information ([0, 1].map (fun x => x + 1))
        ([2, 2].map (fun x => x + 2))
      = normalized_mutual_information [0, 1] [2, 2] :=
  C10_label_metrics_renaming_invariant [0, 1] [2, 2] (fun x => x + 1) (fun x => x + 2)
    (fun a b h => by simpa using h) (fun a b h => by simpa using h)

/-- Cluster membership positions are preserved by an injective relabeling. -/
lemma clusterIdx_map {σ : ℕ → ℕ} (hσ : Function.Injective σ) (labels : List ℕ)
    (c : ℕ) : clusterIdx (labels.map σ) (σ c) = clusterIdx labels c := by
  unfold clusterIdx
  rw [List.length_map]
  apply Finset.filter_congr
  intro k hk
  rw [Finset.mem_range] at hk
  rw [getD_map_lt σ labels k hk]
  exact ⟨fun h => hσ h, fun h => congrArg σ h⟩
/-- Mean distance to a cluster is preserved by an injective relabeling. -/
lemma meanDistTo_map {σ : ℕ → ℕ} (hσ : Function.Injective σ)
    (d : List ℚ → List ℚ → ℝ) (f : List (List ℚ)) (labels : List ℕ) (i c : ℕ) :
    meanDistTo d f (labels.map σ) i (σ c) = meanDistTo d f labels i c := by
  unfold meanDistTo
  rw [clusterIdx_map hσ labels c]
/-- `a(i)` is preserved by an injective relabeling. -/
lemma silA_map {σ : ℕ → ℕ} (hσ : Function.Injective σ) (d : List ℚ → List ℚ → ℝ)
    (f : List (List ℚ)) (labels : List ℕ) (i : ℕ) (hi : i < labels.length) :
    silA d f (labels.map σ) i = silA d f labels i := by
  unfold silA
  rw [getD_map_lt σ labels i hi, clusterIdx_map hσ labels (labels.getD i 0)]
/-- The filtered list of other clusters maps along an injective
relabeling. -/
lemma other_clusters_map {σ : ℕ → ℕ} (hσ : Function.Injective σ) (labels : List ℕ)
    (c : ℕ) :
    (labels.map σ).dedup.filter (fun l => l ≠ σ c)
      = (labels.dedup.filter (fun l => l ≠ c)).map σ := by
  rw [dedup_map_of_injective hσ labels, List.filter_map]
  refine congrArg (List.map σ) (List.filter_congr (fun a _ => ?_))
  show decide (σ a ≠ σ c) = decide (a ≠ c)
  exact decide_eq_decide.mpr (not_congr ⟨fun h => hσ h, fun h => congrArg σ h⟩)
/-- `b(i)` is preserved by an injective relabeling. -/
lemma silB_map {σ : ℕ → ℕ} (hσ : Function.Injective σ) (d : List ℚ → List ℚ → ℝ)
    (f : List (List ℚ)) (labels : List ℕ) (i : ℕ) (hi : i < labels.length) :
    silB d f (labels.map σ) i = silB d f labels i := by
  unfold silB
  rw [getD_map_lt σ labels i hi, other_clusters_map hσ labels (labels.getD i 0),
    List.map_map]
  refine congrArg listMinR (List.map_congr_left (fun c _ => ?_))
  show meanDistTo d f (labels.map σ) i (σ c) = meanDistTo d f labels i c
  exact meanDistTo_map hσ d f labels i c
/-- `s(i)` is preserved by an injective relabeling. -/
lemma silS_map {σ : ℕ → ℕ} (hσ : Function.Injective σ) (d : List ℚ → List ℚ → ℝ)
    (f : List (List ℚ)) (labels : List ℕ) (i : ℕ) (hi : i < labels.length) :
    silS d f (labels.map σ) i = silS d f labels i := by
  unfold silS
  rw [silA_map hσ d f labels i hi, silB_map hσ d f labels i hi]
/-- The mean silhouette coefficient is preserved by an injective
relabeling. -/
lemma silhouetteVal_map {σ : ℕ → ℕ} (hσ : Function.Injective σ)
    (d : List ℚ → List ℚ → ℝ) (f : List (List ℚ)) (labels : List ℕ) :
    silhouetteVal d f (labels.map σ) = silhouetteVal d f labels := by
  unfold silhouetteVal
  rw [List.length_map]
  refine congrArg (fun s : ℝ => s / (labels.length : ℝ))
    (Finset.sum_congr rfl (fun i hi => ?_))
  exact silS_map hσ d f labels i (Finset.mem_range.mp hi)
/-- The silhouette score is preserved by an injective relabeling. -/
lemma silhouette_score_map {σ : ℕ → ℕ} (hσ : Function.Injective σ)
    (f : List (List ℚ)) (labels : List ℕ) :
    silhouette_score f (labels.map σ) = silhouette_score f labels := by
  unfold silhouette_score
  rw [List.length_map, dedup_map_of_injective hσ labels, List.length_map,
    silhouetteVal_map hσ euclid f labels]
/-- The centroid of a cluster is preserved by an injective relabeling. -/
lemma centroid_map {σ : ℕ → ℕ} (hσ : Function.Injective σ) (f : List (List ℚ))
    (labels : List ℕ) (c : ℕ) :
    centroid f (labels.map σ) (σ c) = centroid f labels c := by
  unfold centroid
  rw [List.length_map labels σ]
  have hfil : (List.range labels.length).filter
      (fun k => (labels.map σ).getD k 0 = σ c)
      = (List.range labels.length).filter (fun k => labels.getD k 0 = c) := by
    refine List.filter_congr (fun k hk => ?_)
    have hk' : k < labels.length := List.mem_range.mp hk
    show decide ((labels.map σ).getD k 0 = σ c) = decide (labels.getD k 0 = c)
    rw [getD_map_lt σ labels k hk']
    exact decide_eq_decide.mpr ⟨fun h => hσ h, fun h => congrArg σ h⟩
  rw [hfil]
/-- The overall centroid ignores the cluster identifiers entirely. -/
lemma overallCentroid_map (σ : ℕ → ℕ) (f : List (List ℚ)) (labels : List ℕ) :
    overallCentroid f (labels.map σ) = overallCentroid f labels := by
  unfold overallCentroid
  rw [List.length_map labels σ]
/-- The scatter of a cluster is preserved by an injective relabeling. -/
lemma dbScatter_map {σ : ℕ → ℕ} (hσ : Function.Injective σ) (f : List (List ℚ))
    (labels : List ℕ) (c : ℕ) :
    dbScatter f (labels.map σ) (σ c) = dbScatter f labels c := by
  unfold dbScatter
  rw [clusterIdx_map hσ labels c, centroid_map hσ f labels c]
/-- `D_k` is preserved by an injective relabeling. -/
lemma dbD_map {σ : ℕ → ℕ} (hσ : Function.Injective σ) (f : List (List ℚ))
    (labels : List ℕ) (c : ℕ) :
    dbD f (labels.map σ) (σ c) = dbD f labels c := by
  unfold dbD
  rw [other_clusters_map hσ labels c, List.map_map]
  refine congrArg listMaxR (List.map_congr_left (fun l _ => ?_))
  show (dbScatter f (labels.map σ) (σ c) + dbScatter f (labels.map σ) (σ l))
      / euclid (centroid f (labels.map σ) (σ c)) (centroid f (labels.map σ) (σ l)) = _
  rw [dbScatter_map hσ f labels c, dbScatter_map hσ f labels l,
    centroid_map hσ f labels c, centroid_map hσ f labels l]
/-- The Davies-Bouldin index is preserved by an injective relabeling. -/
lemma davies_bouldin_index_map {σ : ℕ → ℕ} (hσ : Function.Injective σ)
    (f : List (List ℚ)) (labels : List ℕ) :
    davies_bouldin_index f (labels.map σ) = davies_bouldin_index f labels := by
  unfold davies_bouldin_index
  rw [List.length_map, dedup_map_of_injective hσ labels, List.length_map,
    List.map_map]
  have hsum : (labels.dedup.map (fun c => dbD f (labels.map σ) (σ c))).sum
      = (labels.dedup.map (fun c => dbD f labels c)).sum :=
    congrArg List.sum (List.map_congr_left (fun c _ => dbD_map hσ f labels c))
  rw [show (labels.dedup.map ((fun c => dbD f (labels.map σ) c) ∘ σ)).sum
      = (labels.dedup.map (fun c => dbD f (labels.map σ) (σ c))).sum from rfl, hsum]
/-- Between-cluster dispersion is preserved by an injective relabeling. -/
lemma chB_map {σ : ℕ → ℕ} (hσ : Function.Injective σ) (f : List (List ℚ))
    (labels : List ℕ) : chB f (labels.map σ) = chB f labels := by
  unfold chB
  rw [dedup_map_of_injective hσ labels, List.map_map]
  refine congrArg List.sum (List.map_congr_left (fun c _ => ?_))
  show (((clusterIdx (labels.map σ) (σ c)).card : ℚ) *
      sqdist (centroid f (labels.map σ) (σ c)) (overallCentroid f (labels.map σ))) = _
  rw [clusterIdx_map hσ labels c, centroid_map hσ f labels c,
    overallCentroid_map σ f labels]
/-- Within-cluster dispersion is preserved by an injective relabeling. -/
lemma chW_map {σ : ℕ → ℕ} (hσ : Function.Injective σ) (f : List (List ℚ))
    (labels : List ℕ) : chW f (labels.map σ) = chW f labels := by
  unfold chW
  rw [List.length_map]
  refine Finset.sum_congr rfl (fun k hk => ?_)
  have hk' : k < labels.length := Finset.mem_range.mp hk
  rw [getD_map_lt σ labels k hk', centroid_map hσ f labels (labels.getD k 0)]
/-- The Calinski-Harabasz index is preserved by an injective relabeling. -/
lemma calinski_harabasz_index_map {σ : ℕ → ℕ} (hσ : Function.Injective σ)
    (f : List (List ℚ)) (labels : List ℕ) :
    calinski_harabasz_index f (labels.map σ) = calinski_harabasz_index f labels := by
  unfold calinski_harabasz_index
  rw [dedup_map_of_injective hσ labels, List.length_map, List.length_map,
    chB_map hσ f labels, chW_map hσ f labels]
/-- C9: the three distance-based metrics depend only on the induced
partition: any injective renaming of the cluster identifiers leaves them
unchanged. -/
theorem C9_distance_metrics_renaming_invariant (f : List (List ℚ))
    (labels : List ℕ) (σ : ℕ → ℕ) (hσ : Function.Injective σ) :
    silhouette_score f (labels.map σ) = silhouette_score f labels ∧
    davies_bouldin_index f (labels.map σ) = davies_bouldin_index f labels ∧
    calinski_harabasz_index f (labels.map σ) = calinski_harabasz_index f labels :=
  ⟨silhouette_score_map hσ f labels, davies_bouldin_index_map hσ f labels,
   calinski_harabasz_index_map hσ f labels⟩

/-- Witness for C9: shifting the cluster identifiers by one leaves the three
distance-based metrics unchanged on a concrete two-point input. -/
theorem C9_distance_metrics_renaming_invariant_witness :
    silhouette_score [[0], [1]] ([0, 1].map (fun x => x + 1))
      = silhouette_score [[0], [1]] [0, 1] ∧
    davies_bouldin_index [[0], [1]] ([0, 1].map (fun x => x + 1))
      = davies_bouldin_index [[0], [1]] [0, 1] ∧
    calinski_harabasz_index [[0], [1]] ([0, 1].map (fun x => x + 1))
      = calinski_harabasz_index [[0], [1]] [0, 1] :=
  C9_distance_metrics_renaming_invariant [[0], [1]] [0, 1] (fun x => x + 1)
    (fun a b h => by simpa using h)
